import Mathlib

/-!
# The `math` character device (`math.c`)

A shallow embedding of the kernel module's three file operations
(`math_open`, `math_release`, `math_ioctl`) together with `math_init`.

* C `int` values are integers kept in `[-2^31, 2^31 - 1]`; every C operation
  that can leave that range is followed by an explicit two's-complement wrap
  (`wrap32` for `int`, `wrap64` for `long long`).
* The user buffer behind `arg_ptr` is a `UserBuf`: the `int` stored in each
  slot plus the access rights `get_user` / `put_user` check.
* The command numbers are macros of `math.h`; nothing in `math_ioctl` depends
  on their values beyond their being the labels of one `switch`, so they are
  a parameter (`IoctlCodes`).
* `math_ioctl` is embedded three times: with wrapping arithmetic
  (`math_ioctl`), with the operations C leaves undefined made partial
  (`math_ioctl_checked`), and with the session and the global counter passed
  through (`math_ioctl_global`); the three are proved to agree.
* Calls are run one after another (`Sys`), with the values the counter takes
  inside a call (`Sys.path`), and as interleavings of their atomic steps
  (`Conc`).
-/

namespace MathModule

/-! ## Machine integers -/

def INT_MAX : Int := 2147483647

def INT_MIN : Int := -2147483648

/-- Two's-complement reduction of an integer to the range of a C `int`. -/
def wrap32 (x : Int) : Int := (x + 2 ^ 31) % 2 ^ 32 - 2 ^ 31

/-- Two's-complement reduction of an integer to the range of a C `long long`. -/
def wrap64 (x : Int) : Int := (x + 2 ^ 63) % 2 ^ 64 - 2 ^ 63

/-- The values a C `int` can hold. -/
def IsInt32 (x : Int) : Prop := INT_MIN ≤ x ∧ x ≤ INT_MAX

instance (x : Int) : Decidable (IsInt32 x) := by
  unfold IsInt32; exact inferInstance

/-- The conversion `(long long)x` of an `int`: sign extension. -/
def cast_ll (x : Int) : Int := wrap64 x

/-- The conversion `(int)x` of a `long long`. -/
def cast_int (x : Int) : Int := wrap32 x

/-- The `long long` product `x * y`. -/
def mul_ll (x y : Int) : Int := wrap64 (x * y)

/-- The `long long` sum `x + y`. -/
def add_ll (x y : Int) : Int := wrap64 (x + y)

/-- The `long long` difference `x - y`. -/
def sub_ll (x y : Int) : Int := wrap64 (x - y)

/-- The `int` negation `-x`. -/
def neg_int (x : Int) : Int := wrap32 (-x)

/-- The `int` quotient `x / y`: C division truncates toward zero. -/
def div_int (x y : Int) : Int := wrap32 (Int.tdiv x y)

/-! ## Kernel error numbers -/

def EFAULT : Int := 14

def EBUSY : Int := 16

def EINVAL : Int := 22

/-! ## User memory -/

/-- The `int` array behind the `arg` pointer of an ioctl call: the value held
by each slot and whether the calling process may read or write it. -/
structure UserBuf where
  val : Nat → Int
  readable : Nat → Bool
  writable : Nat → Bool

/-- The kernel's `get_user(x, ptr + i)`: the error code and the value loaded
into `x` (zero when the access faults). -/
def get_user (buf : UserBuf) (i : Nat) : Int × Int :=
  if buf.readable i then (0, buf.val i) else (-EFAULT, 0)

/-- The kernel's `put_user(x, ptr + i)`: the error code and the buffer after
the store (untouched when the access faults). -/
def put_user (buf : UserBuf) (i : Nat) (x : Int) : Int × UserBuf :=
  if buf.writable i then
    (0, { buf with val := fun j => if j = i then x else buf.val j })
  else (-EFAULT, buf)

/-! ## Command numbers -/

/-- The six command numbers `math.h` defines. -/
structure IoctlCodes where
  MATH_IOCTL_SQR : Nat
  MATH_IOCTL_NEG : Nat
  MATH_IOCTL_ADD : Nat
  MATH_IOCTL_SUB : Nat
  MATH_IOCTL_MUL : Nat
  MATH_IOCTL_DIV : Nat

/-- The list of the recognised command numbers, in the order of the `case`
labels of `math_ioctl`. -/
def IoctlCodes.all (k : IoctlCodes) : List Nat :=
  [k.MATH_IOCTL_SQR, k.MATH_IOCTL_NEG, k.MATH_IOCTL_ADD,
   k.MATH_IOCTL_SUB, k.MATH_IOCTL_MUL, k.MATH_IOCTL_DIV]

/-- The `case` labels of a C `switch` are pairwise different. -/
def IoctlCodes.Distinct (k : IoctlCodes) : Prop := k.all.Nodup

instance (k : IoctlCodes) : Decidable k.Distinct := by
  unfold IoctlCodes.Distinct; exact inferInstance

/-- A concrete numbering, used to instantiate the general results. -/
def sampleCodes : IoctlCodes := ⟨1, 2, 3, 4, 5, 6⟩

/-! ## `math_ioctl` -/

/-- The function `math_ioctl`: the value returned and the user buffer on
return. -/
def math_ioctl (k : IoctlCodes) (cmd : Nat) (buf : UserBuf) : Int × UserBuf :=
  if cmd = k.MATH_IOCTL_SQR then
    let (err, first_op) := get_user buf 0
    if err < 0 then (err, buf) else
    let first_op_l := cast_ll first_op
    let result_l := mul_ll first_op_l first_op_l
    if result_l > INT_MAX ∨ result_l < INT_MIN then (-EINVAL, buf) else
    let result := cast_int result_l
    let (err, buf1) := put_user buf 1 result
    if err < 0 then (err, buf1) else (0, buf1)
  else if cmd = k.MATH_IOCTL_NEG then
    let (err, first_op) := get_user buf 0
    if err < 0 then (err, buf) else
    if first_op = INT_MIN then (-EINVAL, buf) else
    let result := neg_int first_op
    let (err, buf1) := put_user buf 1 result
    if err < 0 then (err, buf1) else (0, buf1)
  else if cmd = k.MATH_IOCTL_ADD then
    let (err, first_op) := get_user buf 0
    if err < 0 then (err, buf) else
    let (err, second_op) := get_user buf 1
    if err < 0 then (err, buf) else
    let first_op_l := cast_ll first_op
    let second_op_l := cast_ll second_op
    let result_l := add_ll first_op_l second_op_l
    if result_l > INT_MAX ∨ result_l < INT_MIN then (-EINVAL, buf) else
    let result := cast_int result_l
    let (err, buf1) := put_user buf 2 result
    if err < 0 then (err, buf1) else (0, buf1)
  else if cmd = k.MATH_IOCTL_SUB then
    let (err, first_op) := get_user buf 0
    if err < 0 then (err, buf) else
    let (err, second_op) := get_user buf 1
    if err < 0 then (err, buf) else
    let first_op_l := cast_ll first_op
    let second_op_l := cast_ll second_op
    let result_l := sub_ll first_op_l second_op_l
    if result_l > INT_MAX ∨ result_l < INT_MIN then (-EINVAL, buf) else
    let result := cast_int result_l
    let (err, buf1) := put_user buf 2 result
    if err < 0 then (err, buf1) else (0, buf1)
  else if cmd = k.MATH_IOCTL_MUL then
    let (err, first_op) := get_user buf 0
    if err < 0 then (err, buf) else
    let (err, second_op) := get_user buf 1
    if err < 0 then (err, buf) else
    let first_op_l := cast_ll first_op
    let second_op_l := cast_ll second_op
    let result_l := mul_ll first_op_l second_op_l
    if result_l > INT_MAX ∨ result_l < INT_MIN then (-EINVAL, buf) else
    let result := cast_int result_l
    let (err, buf1) := put_user buf 2 result
    if err < 0 then (err, buf1) else (0, buf1)
  else if cmd = k.MATH_IOCTL_DIV then
    let (err, first_op) := get_user buf 0
    if err < 0 then (err, buf) else
    let (err, second_op) := get_user buf 1
    if err < 0 then (err, buf) else
    if second_op = 0 ∨ (first_op = INT_MIN ∧ second_op = -1) then (-EINVAL, buf) else
    let result := div_int first_op second_op
    let (err, buf1) := put_user buf 2 result
    if err < 0 then (err, buf1) else (0, buf1)
  else (-EINVAL, buf)

/-- A fully accessible buffer holding `a`, `b`, `c` in slots 0, 1, 2 and zero
elsewhere. -/
def mkBuf (a b c : Int) : UserBuf where
  val := fun i => if i = 0 then a else if i = 1 then b else if i = 2 then c else 0
  readable := fun _ => true
  writable := fun _ => true

/-! ## Admission control -/

def MAX_USERS : Int := 4

/-- The kernel's `atomic_set(&v, i)`: the counter after the store. -/
def atomic_set (_v : Int) (i : Int) : Int := i

/-- The kernel's `atomic_dec_return(&v)`: the counter after the decrement and
the value returned, which is that new counter. Atomic arithmetic wraps. -/
def atomic_dec_return (v : Int) : Int × Int := (wrap32 (v - 1), wrap32 (v - 1))

/-- The kernel's `atomic_inc(&v)`: the counter after the increment. -/
def atomic_inc (v : Int) : Int := wrap32 (v + 1)

/-- The function `math_init`, given what `register_chrdev` returns: the value
returned and `user_num` on return. -/
def math_init (register_chrdev : Int) (user_num : Int) : Int × Int :=
  let user_num := atomic_set user_num MAX_USERS
  let err := register_chrdev
  if err < 0 then (err, user_num) else (0, user_num)

/-- The function `math_open`: the value returned and `user_num` on return. -/
def math_open (user_num : Int) : Int × Int :=
  let (user_num, r) := atomic_dec_return user_num
  if r < 0 then
    let user_num := atomic_inc user_num
    (-EBUSY, user_num)
  else (0, user_num)

/-- The function `math_release`: the value returned and `user_num` on
return. -/
def math_release (user_num : Int) : Int × Int :=
  let user_num := atomic_inc user_num
  (0, user_num)

/-- A call the kernel makes into the module: an `open` of the device, or the
`release` of the session that the `sid`-th call opened. -/
inductive Call where
  | do_open : Call
  | do_release (sid : Nat) : Call
  deriving DecidableEq, Repr

/-- The module between two calls: the counter `user_num`, and (bookkeeping
that the module itself does not store) the sessions granted and not yet
closed, each named by the index of the call that opened it, and the number of
calls made so far. -/
structure Sys where
  user_num : Int
  active : List Nat
  calls : Nat

/-- One call, run to completion. A granted `open` adds its session to
`active`; a `release` removes the session it closes. -/
def Sys.step (s : Sys) : Call → Sys
  | .do_open =>
    let (ret, c) := math_open s.user_num
    { user_num := c
      active := if ret = 0 then s.calls :: s.active else s.active
      calls := s.calls + 1 }
  | .do_release sid =>
    let (_, c) := math_release s.user_num
    { user_num := c
      active := s.active.erase sid
      calls := s.calls + 1 }

/-- A sequence of calls, each run to completion before the next. -/
def Sys.run (s : Sys) (tr : List Call) : Sys := tr.foldl Sys.step s

/-- Every `release` of the sequence closes a session that is granted and not
yet closed when the call is made. -/
def Matched (s : Sys) : List Call → Prop
  | [] => True
  | .do_open :: rest => Matched (s.step .do_open) rest
  | .do_release sid :: rest => sid ∈ s.active ∧ Matched (s.step (.do_release sid)) rest

instance Matched.instDecidable : (s : Sys) → (tr : List Call) → Decidable (Matched s tr)
  | _, [] => .isTrue trivial
  | s, .do_open :: rest => Matched.instDecidable (s.step .do_open) rest
  | s, .do_release sid :: rest =>
    have := Matched.instDecidable (s.step (.do_release sid)) rest
    inferInstanceAs (Decidable (sid ∈ s.active ∧ Matched (s.step (.do_release sid)) rest))

/-- The module once `math_init` has run, `user_num` being a zero-initialised
static before. -/
def boot (register_chrdev : Int) : Sys :=
  { user_num := (math_init register_chrdev 0).2, active := [], calls := 0 }

/-- The accounting the counter is meant to keep: at most `MAX_USERS` sessions
are granted and not yet closed, the counter is `MAX_USERS` minus their number,
and the sessions are distinct calls made so far. -/
def CapacityInv (s : Sys) : Prop :=
  (s.active.length : Int) ≤ MAX_USERS ∧ s.user_num = MAX_USERS - s.active.length ∧
    s.active.Nodup ∧ ∀ sid ∈ s.active, sid < s.calls

/-- The values `user_num` takes, in order, while `math_open` runs: the one
`atomic_dec_return` leaves and, when the open is denied, the one the
compensating `atomic_inc` leaves. -/
def math_open_path (user_num : Int) : List Int :=
  let (user_num, r) := atomic_dec_return user_num
  if r < 0 then
    [user_num, atomic_inc user_num]
  else [user_num]

/-- The values `user_num` takes while `math_release` runs. -/
def math_release_path (user_num : Int) : List Int :=
  [atomic_inc user_num]

/-- Every value `user_num` takes, in order, while a sequence of calls runs
from `s`, each call to completion before the next. -/
def Sys.path (s : Sys) : List Call → List Int
  | [] => []
  | .do_open :: rest => math_open_path s.user_num ++ (s.step .do_open).path rest
  | .do_release sid :: rest =>
    math_release_path s.user_num ++ (s.step (.do_release sid)).path rest

/-! ## `math_ioctl` with the undefined operations of C made explicit -/

/-- The `long long` product `x * y`, which C leaves undefined when the exact
product is not a `long long`. -/
def mul_ll_checked (x y : Int) : Option Int :=
  if -2 ^ 63 ≤ x * y ∧ x * y < 2 ^ 63 then some (x * y) else none

/-- The `long long` sum `x + y`, undefined when the exact sum is not a
`long long`. -/
def add_ll_checked (x y : Int) : Option Int :=
  if -2 ^ 63 ≤ x + y ∧ x + y < 2 ^ 63 then some (x + y) else none

/-- The `long long` difference `x - y`, undefined when the exact difference
is not a `long long`. -/
def sub_ll_checked (x y : Int) : Option Int :=
  if -2 ^ 63 ≤ x - y ∧ x - y < 2 ^ 63 then some (x - y) else none

/-- The conversion `(int)x`, taken as defined only when `x` is a value an
`int` can hold. -/
def cast_int_checked (x : Int) : Option Int :=
  if IsInt32 x then some x else none

/-- The `int` negation `-x`, undefined for `INT_MIN`. -/
def neg_int_checked (x : Int) : Option Int :=
  if x = INT_MIN then none else some (-x)

/-- The `int` quotient `x / y`, undefined for a zero divisor and for
`INT_MIN / -1`. -/
def div_int_checked (x y : Int) : Option Int :=
  if y = 0 ∨ (x = INT_MIN ∧ y = -1) then none else some (Int.tdiv x y)

/-- The function `math_ioctl` again, every arithmetic operation being the
checked one: `none` when the call executes an operation C leaves undefined (or
narrows a value that does not fit), and otherwise the value returned and the
user buffer on return. -/
def math_ioctl_checked (k : IoctlCodes) (cmd : Nat) (buf : UserBuf) :
    Option (Int × UserBuf) :=
  if cmd = k.MATH_IOCTL_SQR then
    let (err, first_op) := get_user buf 0
    if err < 0 then some (err, buf) else
    let first_op_l := cast_ll first_op
    (mul_ll_checked first_op_l first_op_l).bind fun result_l =>
    if result_l > INT_MAX ∨ result_l < INT_MIN then some (-EINVAL, buf) else
    (cast_int_checked result_l).bind fun result =>
    let (err, buf1) := put_user buf 1 result
    if err < 0 then some (err, buf1) else some (0, buf1)
  else if cmd = k.MATH_IOCTL_NEG then
    let (err, first_op) := get_user buf 0
    if err < 0 then some (err, buf) else
    if first_op = INT_MIN then some (-EINVAL, buf) else
    (neg_int_checked first_op).bind fun result =>
    let (err, buf1) := put_user buf 1 result
    if err < 0 then some (err, buf1) else some (0, buf1)
  else if cmd = k.MATH_IOCTL_ADD then
    let (err, first_op) := get_user buf 0
    if err < 0 then some (err, buf) else
    let (err, second_op) := get_user buf 1
    if err < 0 then some (err, buf) else
    let first_op_l := cast_ll first_op
    let second_op_l := cast_ll second_op
    (add_ll_checked first_op_l second_op_l).bind fun result_l =>
    if result_l > INT_MAX ∨ result_l < INT_MIN then some (-EINVAL, buf) else
    (cast_int_checked result_l).bind fun result =>
    let (err, buf1) := put_user buf 2 result
    if err < 0 then some (err, buf1) else some (0, buf1)
  else if cmd = k.MATH_IOCTL_SUB then
    let (err, first_op) := get_user buf 0
    if err < 0 then some (err, buf) else
    let (err, second_op) := get_user buf 1
    if err < 0 then some (err, buf) else
    let first_op_l := cast_ll first_op
    let second_op_l := cast_ll second_op
    (sub_ll_checked first_op_l second_op_l).bind fun result_l =>
    if result_l > INT_MAX ∨ result_l < INT_MIN then some (-EINVAL, buf) else
    (cast_int_checked result_l).bind fun result =>
    let (err, buf1) := put_user buf 2 result
    if err < 0 then some (err, buf1) else some (0, buf1)
  else if cmd = k.MATH_IOCTL_MUL then
    let (err, first_op) := get_user buf 0
    if err < 0 then some (err, buf) else
    let (err, second_op) := get_user buf 1
    if err < 0 then some (err, buf) else
    let first_op_l := cast_ll first_op
    let second_op_l := cast_ll second_op
    (mul_ll_checked first_op_l second_op_l).bind fun result_l =>
    if result_l > INT_MAX ∨ result_l < INT_MIN then some (-EINVAL, buf) else
    (cast_int_checked result_l).bind fun result =>
    let (err, buf1) := put_user buf 2 result
    if err < 0 then some (err, buf1) else some (0, buf1)
  else if cmd = k.MATH_IOCTL_DIV then
    let (err, first_op) := get_user buf 0
    if err < 0 then some (err, buf) else
    let (err, second_op) := get_user buf 1
    if err < 0 then some (err, buf) else
    if second_op = 0 ∨ (first_op = INT_MIN ∧ second_op = -1) then some (-EINVAL, buf) else
    (div_int_checked first_op second_op).bind fun result =>
    let (err, buf1) := put_user buf 2 result
    if err < 0 then some (err, buf1) else some (0, buf1)
  else some (-EINVAL, buf)

/-! ## `math_ioctl` as a step of the whole module -/

/-- The function `math_ioctl` with the state around it made explicit: the
session `file` the call is made on and the module's global `user_num` come
in, and the value returned, the user buffer on return and `user_num` on
return come out. -/
def math_ioctl_global (k : IoctlCodes) (_file : Nat) (user_num : Int) (cmd : Nat)
    (buf : UserBuf) : Int × UserBuf × Int :=
  if cmd = k.MATH_IOCTL_SQR then
    let (err, first_op) := get_user buf 0
    if err < 0 then (err, buf, user_num) else
    let first_op_l := cast_ll first_op
    let result_l := mul_ll first_op_l first_op_l
    if result_l > INT_MAX ∨ result_l < INT_MIN then (-EINVAL, buf, user_num) else
    let result := cast_int result_l
    let (err, buf1) := put_user buf 1 result
    if err < 0 then (err, buf1, user_num) else (0, buf1, user_num)
  else if cmd = k.MATH_IOCTL_NEG then
    let (err, first_op) := get_user buf 0
    if err < 0 then (err, buf, user_num) else
    if first_op = INT_MIN then (-EINVAL, buf, user_num) else
    let result := neg_int first_op
    let (err, buf1) := put_user buf 1 result
    if err < 0 then (err, buf1, user_num) else (0, buf1, user_num)
  else if cmd = k.MATH_IOCTL_ADD then
    let (err, first_op) := get_user buf 0
    if err < 0 then (err, buf, user_num) else
    let (err, second_op) := get_user buf 1
    if err < 0 then (err, buf, user_num) else
    let first_op_l := cast_ll first_op
    let second_op_l := cast_ll second_op
    let result_l := add_ll first_op_l second_op_l
    if result_l > INT_MAX ∨ result_l < INT_MIN then (-EINVAL, buf, user_num) else
    let result := cast_int result_l
    let (err, buf1) := put_user buf 2 result
    if err < 0 then (err, buf1, user_num) else (0, buf1, user_num)
  else if cmd = k.MATH_IOCTL_SUB then
    let (err, first_op) := get_user buf 0
    if err < 0 then (err, buf, user_num) else
    let (err, second_op) := get_user buf 1
    if err < 0 then (err, buf, user_num) else
    let first_op_l := cast_ll first_op
    let second_op_l := cast_ll second_op
    let result_l := sub_ll first_op_l second_op_l
    if result_l > INT_MAX ∨ result_l < INT_MIN then (-EINVAL, buf, user_num) else
    let result := cast_int result_l
    let (err, buf1) := put_user buf 2 result
    if err < 0 then (err, buf1, user_num) else (0, buf1, user_num)
  else if cmd = k.MATH_IOCTL_MUL then
    let (err, first_op) := get_user buf 0
    if err < 0 then (err, buf, user_num) else
    let (err, second_op) := get_user buf 1
    if err < 0 then (err, buf, user_num) else
    let first_op_l := cast_ll first_op
    let second_op_l := cast_ll second_op
    let result_l := mul_ll first_op_l second_op_l
    if result_l > INT_MAX ∨ result_l < INT_MIN then (-EINVAL, buf, user_num) else
    let result := cast_int result_l
    let (err, buf1) := put_user buf 2 result
    if err < 0 then (err, buf1, user_num) else (0, buf1, user_num)
  else if cmd = k.MATH_IOCTL_DIV then
    let (err, first_op) := get_user buf 0
    if err < 0 then (err, buf, user_num) else
    let (err, second_op) := get_user buf 1
    if err < 0 then (err, buf, user_num) else
    if second_op = 0 ∨ (first_op = INT_MIN ∧ second_op = -1) then
      (-EINVAL, buf, user_num)
    else
    let result := div_int first_op second_op
    let (err, buf1) := put_user buf 2 result
    if err < 0 then (err, buf1, user_num) else (0, buf1, user_num)
  else (-EINVAL, buf, user_num)

/-! ## Calls running concurrently -/

/-- One atomic step of a call in flight. The calls `math_open` makes are named
by numbers; a session is named by the `math_open` call that granted it. -/
inductive Step where
  /-- The `atomic_dec_return` of the `math_open` call `t`. -/
  | open_dec (t : Nat) : Step
  /-- The compensating `atomic_inc` of the `math_open` call `t`, which was
  denied. -/
  | open_undo (t : Nat) : Step
  /-- The `atomic_inc` of the `math_release` call that closes session `sid`. -/
  | release_inc (sid : Nat) : Step
  deriving DecidableEq, Repr

/-- A call taken as a whole. -/
inductive WholeCall where
  | w_open (t : Nat) : WholeCall
  | w_release (sid : Nat) : WholeCall
  deriving DecidableEq, Repr

/-- The module with calls in flight: the counter `user_num`; the `math_open`
calls that are past an `atomic_dec_return` with a negative result and have
their `atomic_inc` still to do (`undo`); the sessions granted and not yet
closed (`active`); the `math_open` calls that have returned, each with the
value it returned (`rets`); and the `math_open` calls made so far
(`started`). -/
structure Conc where
  user_num : Int
  undo : List Nat
  active : List Nat
  rets : List (Nat × Int)
  started : List Nat

/-- One atomic step. It is `none` when the step cannot be taken: a call number
used twice, a compensation by a call that has none to do, the release of a
session that is not active. A granted `math_open` has no shared step left
after `atomic_dec_return`, so it returns 0 with that step. -/
def Conc.step (s : Conc) : Step → Option Conc
  | .open_dec t =>
    if t ∈ s.started then none else
    let (user_num, r) := atomic_dec_return s.user_num
    if r < 0 then
      some { s with user_num := user_num, undo := t :: s.undo, started := t :: s.started }
    else
      some { s with
        user_num := user_num, active := t :: s.active, rets := (t, 0) :: s.rets,
        started := t :: s.started }
  | .open_undo t =>
    if t ∈ s.undo then
      some { s with
        user_num := atomic_inc s.user_num, undo := s.undo.erase t,
        rets := (t, -EBUSY) :: s.rets }
    else none
  | .release_inc sid =>
    if sid ∈ s.active then
      some { s with user_num := atomic_inc s.user_num, active := s.active.erase sid }
    else none

/-- An interleaving: atomic steps of different calls in any order. -/
def Conc.run (s : Conc) : List Step → Option Conc
  | [] => some s
  | e :: rest => (s.step e).bind fun s' => s'.run rest

/-- One whole call, run by itself from start to return. -/
def Conc.call (s : Conc) : WholeCall → Option Conc
  | .w_open t =>
    if t ∈ s.started then none else
    let (ret, user_num) := math_open s.user_num
    some { s with
      user_num := user_num, active := if ret = 0 then t :: s.active else s.active,
      rets := (t, ret) :: s.rets, started := t :: s.started }
  | .w_release sid =>
    if sid ∈ s.active then
      let (_, user_num) := math_release s.user_num
      some { s with user_num := user_num, active := s.active.erase sid }
    else none

/-- A serial ordering: whole calls one after another. -/
def Conc.serial (s : Conc) : List WholeCall → Option Conc
  | [] => some s
  | c :: rest => (s.call c).bind fun s' => s'.serial rest

/-- The calls an interleaving is made of, each at its first step. -/
def callsOf : List Step → List WholeCall
  | [] => []
  | .open_dec t :: rest => .w_open t :: callsOf rest
  | .open_undo _ :: rest => callsOf rest
  | .release_inc sid :: rest => .w_release sid :: callsOf rest

/-- The interleaving has no step of a `math_release`. -/
def NoRelease : List Step → Prop
  | [] => True
  | .release_inc _ :: _ => False
  | _ :: rest => NoRelease rest

/-- Along the interleaving, fewer than `bound` calls are inside `math_open`
with a compensation to do at any moment. -/
def Conc.InFlightBelow (bound : Nat) (s : Conc) : List Step → Prop
  | [] => s.undo.length < bound
  | e :: rest =>
    s.undo.length < bound ∧
      match s.step e with
      | none => True
      | some s' => s'.InFlightBelow bound rest

instance Conc.InFlightBelow.instDecidable (bound : Nat) :
    (s : Conc) → (σ : List Step) → Decidable (s.InFlightBelow bound σ)
  | _, [] => Nat.decLt _ _
  | s, e :: rest =>
    @instDecidableAnd _ _ (Nat.decLt _ _)
      (match s.step e with
        | none => .isTrue trivial
        | some s' => Conc.InFlightBelow.instDecidable bound s' rest)

instance NoRelease.instDecidable : (τ : List Step) → Decidable (NoRelease τ)
  | [] => .isTrue trivial
  | .release_inc _ :: _ => .isFalse (fun h => h)
  | .open_dec _ :: rest => NoRelease.instDecidable rest
  | .open_undo _ :: rest => NoRelease.instDecidable rest

/-- The module once `math_init` has run and before any call. -/
def Conc.boot : Conc :=
  { user_num := (math_init 0 0).2, undo := [], active := [], rets := [], started := [] }

/-- The accounting of the counter with calls in flight: the counter is
`MAX_USERS` minus the sessions active minus the compensations still to do, at
most `MAX_USERS` sessions are active, they are distinct, sessions and pending
calls are calls made so far, and every active session is one a `math_open`
returned 0 for. -/
def Conc.Sound (s : Conc) : Prop :=
  s.user_num = MAX_USERS - s.active.length - s.undo.length ∧
    (s.active.length : Int) ≤ MAX_USERS ∧ s.active.Nodup ∧
    (∀ t ∈ s.active, t ∈ s.started) ∧ (∀ t ∈ s.undo, t ∈ s.started) ∧
    (∀ t ∈ s.active, (t, (0 : Int)) ∈ s.rets)

/-- The serial ordering `pre ++ post` of `calls` accounts for the state `s`
reached by an interleaving: run from the initial state it grants and denies
as the interleaving did, the denial of the calls with a compensation still to
do included, it leaves the same sessions active, and it leaves the counter
where `s` has it once the compensations are done. The state `m` between
`pre` and `post` has the counter at 0 whenever a compensation is still to
do. -/
def Serialises (calls : List WholeCall) (s : Conc) : Prop :=
  ∃ (pre post : List WholeCall) (m f : Conc),
    (pre ++ post).Perm calls ∧ Conc.boot.serial pre = some m ∧ m.serial post = some f ∧
    (s.undo ≠ [] → m.user_num = 0) ∧
    f.user_num = s.user_num + s.undo.length ∧ f.active = s.active ∧
    (∀ t r, (t, r) ∈ f.rets ↔ ((t, r) ∈ s.rets ∨ (t ∈ s.undo ∧ r = -EBUSY))) ∧
    (∀ t, t ∈ f.started ↔ t ∈ s.started)

/-- The state `b` is the state `a` with one more `math_open` call, `t`, made
and denied. -/
def DeniedExtra (t : Nat) (a b : Conc) : Prop :=
  b.user_num = a.user_num ∧ b.active = a.active ∧
    (∀ x, x ∈ b.rets ↔ (x = (t, -EBUSY) ∨ x ∈ a.rets)) ∧
    (∀ x, x ∈ b.started ↔ (x = t ∨ x ∈ a.started))

/-! ## Specification-side notions -/

/-- The integer `q` is the quotient of `a` by `b` truncated toward zero: the
remainder `a - q * b` is smaller than `b` in absolute value, and is zero or
has the sign of `a`. -/
def IsTruncQuot (a b q : Int) : Prop :=
  |a - q * b| < |b| ∧
    (a - q * b = 0 ∨ (0 < a - q * b ∧ 0 < a) ∨ (a - q * b < 0 ∧ a < 0))

instance (a b q : Int) : Decidable (IsTruncQuot a b q) := by
  unfold IsTruncQuot; exact inferInstance

/-! ## Machine arithmetic in range -/

theorem wrap32_eq_self {x : Int} (h : IsInt32 x) : wrap32 x = x := by
  unfold IsInt32 INT_MIN INT_MAX at h
  unfold wrap32
  omega

theorem wrap64_eq_self {x : Int} (h1 : -2 ^ 63 ≤ x) (h2 : x < 2 ^ 63) : wrap64 x = x := by
  unfold wrap64
  omega

theorem cast_ll_eq_self {x : Int} (h : IsInt32 x) : cast_ll x = x := by
  unfold IsInt32 INT_MIN INT_MAX at h
  exact wrap64_eq_self (by omega) (by omega)

theorem mul_bounds {a b : Int} (ha : IsInt32 a) (hb : IsInt32 b) :
    -2 ^ 63 ≤ a * b ∧ a * b < 2 ^ 63 := by
  unfold IsInt32 INT_MIN INT_MAX at ha hb
  constructor <;> nlinarith [mul_nonneg (sub_nonneg.2 ha.1) (sub_nonneg.2 hb.1),
    mul_nonneg (sub_nonneg.2 ha.2) (sub_nonneg.2 hb.2),
    mul_nonneg (sub_nonneg.2 ha.1) (sub_nonneg.2 hb.2),
    mul_nonneg (sub_nonneg.2 ha.2) (sub_nonneg.2 hb.1)]

theorem mul_ll_exact {a b : Int} (ha : IsInt32 a) (hb : IsInt32 b) :
    mul_ll (cast_ll a) (cast_ll b) = a * b := by
  rw [cast_ll_eq_self ha, cast_ll_eq_self hb]
  exact wrap64_eq_self (mul_bounds ha hb).1 (mul_bounds ha hb).2

theorem add_ll_exact {a b : Int} (ha : IsInt32 a) (hb : IsInt32 b) :
    add_ll (cast_ll a) (cast_ll b) = a + b := by
  rw [cast_ll_eq_self ha, cast_ll_eq_self hb]
  unfold IsInt32 INT_MIN INT_MAX at ha hb
  exact wrap64_eq_self (by omega) (by omega)

theorem sub_ll_exact {a b : Int} (ha : IsInt32 a) (hb : IsInt32 b) :
    sub_ll (cast_ll a) (cast_ll b) = a - b := by
  rw [cast_ll_eq_self ha, cast_ll_eq_self hb]
  unfold IsInt32 INT_MIN INT_MAX at ha hb
  exact wrap64_eq_self (by omega) (by omega)

/-! ## The branches of `math_ioctl` -/

theorem put_user_status (buf : UserBuf) (i : Nat) (x : Int) :
    (if (put_user buf i x).1 < 0 then ((put_user buf i x).1, (put_user buf i x).2)
      else (0, (put_user buf i x).2)) = put_user buf i x := by
  unfold put_user
  by_cases h : buf.writable i = true <;> simp [h, EFAULT]

theorem put_user_ok (buf : UserBuf) (i : Nat) (x : Int) (h : buf.writable i = true) :
    put_user buf i x = (0, { buf with val := fun j => if j = i then x else buf.val j }) := by
  simp [put_user, h]

theorem get_user_ok (buf : UserBuf) (i : Nat) (h : buf.readable i = true) :
    get_user buf i = (0, buf.val i) := by
  simp [get_user, h]

/-- What `Distinct` says, label by label, each against the labels the `switch`
tries before it. -/
theorem IoctlCodes.Distinct.labels {k : IoctlCodes} (hk : k.Distinct) :
    k.MATH_IOCTL_NEG ≠ k.MATH_IOCTL_SQR ∧
    (k.MATH_IOCTL_ADD ≠ k.MATH_IOCTL_SQR ∧ k.MATH_IOCTL_ADD ≠ k.MATH_IOCTL_NEG) ∧
    (k.MATH_IOCTL_SUB ≠ k.MATH_IOCTL_SQR ∧ k.MATH_IOCTL_SUB ≠ k.MATH_IOCTL_NEG ∧
      k.MATH_IOCTL_SUB ≠ k.MATH_IOCTL_ADD) ∧
    (k.MATH_IOCTL_MUL ≠ k.MATH_IOCTL_SQR ∧ k.MATH_IOCTL_MUL ≠ k.MATH_IOCTL_NEG ∧
      k.MATH_IOCTL_MUL ≠ k.MATH_IOCTL_ADD ∧ k.MATH_IOCTL_MUL ≠ k.MATH_IOCTL_SUB) ∧
    (k.MATH_IOCTL_DIV ≠ k.MATH_IOCTL_SQR ∧ k.MATH_IOCTL_DIV ≠ k.MATH_IOCTL_NEG ∧
      k.MATH_IOCTL_DIV ≠ k.MATH_IOCTL_ADD ∧ k.MATH_IOCTL_DIV ≠ k.MATH_IOCTL_SUB ∧
      k.MATH_IOCTL_DIV ≠ k.MATH_IOCTL_MUL) := by
  simp only [IoctlCodes.Distinct, IoctlCodes.all, List.nodup_cons, List.mem_cons,
    List.mem_singleton, not_or, List.not_mem_nil, not_false_eq_true, List.nodup_nil,
    and_true] at hk
  obtain ⟨⟨a1, a2, a3, a4, a5⟩, ⟨b2, b3, b4, b5⟩, ⟨c3, c4, c5⟩, ⟨d4, d5⟩, e5⟩ := hk
  exact ⟨Ne.symm a1, ⟨Ne.symm a2, Ne.symm b2⟩, ⟨Ne.symm a3, Ne.symm b3, Ne.symm c3⟩,
    ⟨Ne.symm a4, Ne.symm b4, Ne.symm c4, Ne.symm d4⟩,
    ⟨Ne.symm a5, Ne.symm b5, Ne.symm c5, Ne.symm d5, Ne.symm e5⟩⟩

theorem math_ioctl_sqr_eval (k : IoctlCodes) (buf : UserBuf)
    (hr0 : buf.readable 0 = true) :
    math_ioctl k k.MATH_IOCTL_SQR buf =
      if mul_ll (cast_ll (buf.val 0)) (cast_ll (buf.val 0)) > INT_MAX ∨
          mul_ll (cast_ll (buf.val 0)) (cast_ll (buf.val 0)) < INT_MIN then (-EINVAL, buf)
      else put_user buf 1 (cast_int (mul_ll (cast_ll (buf.val 0)) (cast_ll (buf.val 0)))) := by
  unfold math_ioctl
  rw [if_pos rfl, get_user_ok buf 0 hr0]
  simp only [lt_self_iff_false, if_false]
  split
  · rfl
  · exact put_user_status buf 1 _

theorem math_ioctl_neg_eval (k : IoctlCodes) (hk : k.Distinct) (buf : UserBuf)
    (hr0 : buf.readable 0 = true) :
    math_ioctl k k.MATH_IOCTL_NEG buf =
      if buf.val 0 = INT_MIN then (-EINVAL, buf)
      else put_user buf 1 (neg_int (buf.val 0)) := by
  obtain ⟨h1, -⟩ := hk.labels
  unfold math_ioctl
  rw [if_neg h1, if_pos rfl, get_user_ok buf 0 hr0]
  simp only [lt_self_iff_false, if_false]
  split
  · rfl
  · exact put_user_status buf 1 _

theorem math_ioctl_add_eval (k : IoctlCodes) (hk : k.Distinct) (buf : UserBuf)
    (hr0 : buf.readable 0 = true) (hr1 : buf.readable 1 = true) :
    math_ioctl k k.MATH_IOCTL_ADD buf =
      if add_ll (cast_ll (buf.val 0)) (cast_ll (buf.val 1)) > INT_MAX ∨
          add_ll (cast_ll (buf.val 0)) (cast_ll (buf.val 1)) < INT_MIN then (-EINVAL, buf)
      else put_user buf 2 (cast_int (add_ll (cast_ll (buf.val 0)) (cast_ll (buf.val 1)))) := by
  obtain ⟨-, ⟨h1, h2⟩, -⟩ := hk.labels
  unfold math_ioctl
  rw [if_neg h1, if_neg h2, if_pos rfl, get_user_ok buf 0 hr0, get_user_ok buf 1 hr1]
  simp only [lt_self_iff_false, if_false]
  split
  · rfl
  · exact put_user_status buf 2 _

theorem math_ioctl_sub_eval (k : IoctlCodes) (hk : k.Distinct) (buf : UserBuf)
    (hr0 : buf.readable 0 = true) (hr1 : buf.readable 1 = true) :
    math_ioctl k k.MATH_IOCTL_SUB buf =
      if sub_ll (cast_ll (buf.val 0)) (cast_ll (buf.val 1)) > INT_MAX ∨
          sub_ll (cast_ll (buf.val 0)) (cast_ll (buf.val 1)) < INT_MIN then (-EINVAL, buf)
      else put_user buf 2 (cast_int (sub_ll (cast_ll (buf.val 0)) (cast_ll (buf.val 1)))) := by
  obtain ⟨-, -, ⟨h1, h2, h3⟩, -⟩ := hk.labels
  unfold math_ioctl
  rw [if_neg h1, if_neg h2, if_neg h3, if_pos rfl, get_user_ok buf 0 hr0,
    get_user_ok buf 1 hr1]
  simp only [lt_self_iff_false, if_false]
  split
  · rfl
  · exact put_user_status buf 2 _

theorem math_ioctl_mul_eval (k : IoctlCodes) (hk : k.Distinct) (buf : UserBuf)
    (hr0 : buf.readable 0 = true) (hr1 : buf.readable 1 = true) :
    math_ioctl k k.MATH_IOCTL_MUL buf =
      if mul_ll (cast_ll (buf.val 0)) (cast_ll (buf.val 1)) > INT_MAX ∨
          mul_ll (cast_ll (buf.val 0)) (cast_ll (buf.val 1)) < INT_MIN then (-EINVAL, buf)
      else put_user buf 2 (cast_int (mul_ll (cast_ll (buf.val 0)) (cast_ll (buf.val 1)))) := by
  obtain ⟨-, -, -, ⟨h1, h2, h3, h4⟩, -⟩ := hk.labels
  unfold math_ioctl
  rw [if_neg h1, if_neg h2, if_neg h3, if_neg h4, if_pos rfl, get_user_ok buf 0 hr0,
    get_user_ok buf 1 hr1]
  simp only [lt_self_iff_false, if_false]
  split
  · rfl
  · exact put_user_status buf 2 _

theorem math_ioctl_div_eval (k : IoctlCodes) (hk : k.Distinct) (buf : UserBuf)
    (hr0 : buf.readable 0 = true) (hr1 : buf.readable 1 = true) :
    math_ioctl k k.MATH_IOCTL_DIV buf =
      if buf.val 1 = 0 ∨ (buf.val 0 = INT_MIN ∧ buf.val 1 = -1) then (-EINVAL, buf)
      else put_user buf 2 (div_int (buf.val 0) (buf.val 1)) := by
  obtain ⟨-, -, -, -, ⟨h1, h2, h3, h4, h5⟩⟩ := hk.labels
  unfold math_ioctl
  rw [if_neg h1, if_neg h2, if_neg h3, if_neg h4, if_neg h5, if_pos rfl,
    get_user_ok buf 0 hr0, get_user_ok buf 1 hr1]
  simp only [lt_self_iff_false, if_false]
  split
  · rfl
  · exact put_user_status buf 2 _

/-- An unrecognised command takes the `default` label. -/
theorem math_ioctl_default_eval (k : IoctlCodes) (cmd : Nat) (hcmd : cmd ∉ k.all)
    (buf : UserBuf) : math_ioctl k cmd buf = (-EINVAL, buf) := by
  simp only [IoctlCodes.all, List.mem_cons, List.mem_singleton, not_or, List.not_mem_nil,
    not_false_eq_true, and_true] at hcmd
  obtain ⟨h1, h2, h3, h4, h5, h6⟩ := hcmd
  unfold math_ioctl
  rw [if_neg h1, if_neg h2, if_neg h3, if_neg h4, if_neg h5, if_neg h6]

/-! ## Truncated division -/

theorem tdiv_core {a b : Int} (ha : 0 ≤ a) (hb : 0 < b) :
    0 ≤ a - Int.tdiv a b * b ∧ a - Int.tdiv a b * b < b ∧ 0 ≤ Int.tdiv a b ∧
      Int.tdiv a b ≤ a := by
  rw [Int.tdiv_eq_ediv ha hb.le]
  have h1 := Int.emod_nonneg a hb.ne'
  have h2 := Int.emod_lt_of_pos a hb
  have h3 := Int.ediv_add_emod a b
  have h4 : 0 ≤ a / b := Int.ediv_nonneg ha hb.le
  refine ⟨by linarith, by linarith, h4, ?_⟩
  nlinarith

/-- The four sign cases of truncated division, each reduced to the quotient of
the absolute values. -/
theorem tdiv_cases (a b : Int) (hb : b ≠ 0) :
    (0 ≤ a ∧ 0 < b ∧ 0 ≤ a - Int.tdiv a b * b ∧ a - Int.tdiv a b * b < b ∧
        0 ≤ Int.tdiv a b ∧ Int.tdiv a b ≤ a) ∨
    (0 ≤ a ∧ b < 0 ∧ 0 ≤ a - Int.tdiv a b * b ∧ a - Int.tdiv a b * b < -b ∧
        Int.tdiv a b ≤ 0 ∧ -a ≤ Int.tdiv a b) ∨
    (a < 0 ∧ 0 < b ∧ a - Int.tdiv a b * b ≤ 0 ∧ -b < a - Int.tdiv a b * b ∧
        Int.tdiv a b ≤ 0 ∧ a ≤ Int.tdiv a b) ∨
    (a < 0 ∧ b < 0 ∧ a - Int.tdiv a b * b ≤ 0 ∧ b < a - Int.tdiv a b * b ∧
        0 ≤ Int.tdiv a b ∧ Int.tdiv a b ≤ -a) := by
  rcases lt_or_le a 0 with ha | ha <;> rcases lt_or_gt_of_ne hb with hb' | hb'
  · right; right; right
    have h := tdiv_core (a := -a) (b := -b) (by omega) (by omega)
    rw [Int.neg_tdiv_neg] at h
    refine ⟨ha, hb', ?_, ?_, h.2.2.1, h.2.2.2⟩ <;> linarith [h.1, h.2.1]
  · right; right; left
    have h := tdiv_core (a := -a) (b := b) (by omega) hb'
    rw [Int.neg_tdiv] at h
    refine ⟨ha, hb', ?_, ?_, ?_, ?_⟩ <;> linarith [h.1, h.2.1, h.2.2.1, h.2.2.2]
  · right; left
    have h := tdiv_core (a := a) (b := -b) ha (by omega)
    rw [Int.tdiv_neg] at h
    refine ⟨ha, hb', ?_, ?_, ?_, ?_⟩ <;> linarith [h.1, h.2.1, h.2.2.1, h.2.2.2]
  · left
    exact ⟨ha, hb', tdiv_core ha hb'⟩

theorem tdiv_bounds {a b : Int} (ha : IsInt32 a) (hb : b ≠ 0)
    (hov : ¬ (a = INT_MIN ∧ b = -1)) : IsInt32 (Int.tdiv a b) := by
  unfold IsInt32 INT_MIN INT_MAX at *
  rcases tdiv_cases a b hb with h | h | h | h
  · omega
  · omega
  · omega
  · obtain ⟨h1, h2, h3, h4, h5, h6⟩ := h
    refine ⟨by omega, ?_⟩
    by_cases hm : a = -2147483648
    · have hb2 : b ≤ -2 := by omega
      nlinarith
    · omega

theorem tdiv_isTruncQuot (a b : Int) (hb : b ≠ 0) : IsTruncQuot a b (Int.tdiv a b) := by
  unfold IsTruncQuot
  by_cases ha0 : a = 0
  · subst ha0
    simpa using hb
  rcases tdiv_cases a b hb with h | h | h | h <;> obtain ⟨h1, h2, h3, h4, -, -⟩ := h
  · rw [abs_of_pos h2, abs_of_nonneg h3]; omega
  · rw [abs_of_neg h2, abs_of_nonneg h3]; omega
  · rw [abs_of_pos h2, abs_of_nonpos h3]; omega
  · rw [abs_of_neg h2, abs_of_nonpos h3]; omega

theorem isTruncQuot_unique {a b q q' : Int} (h : IsTruncQuot a b q)
    (h' : IsTruncQuot a b q') : q = q' := by
  unfold IsTruncQuot at h h'
  obtain ⟨h1, h2⟩ := h
  obtain ⟨h1', h2'⟩ := h'
  rw [abs_lt] at h1 h1'
  by_contra hne
  rcases lt_or_gt_of_ne hne with hlt | hlt
  · have hd : 1 ≤ q' - q := by omega
    rcases abs_cases b with ⟨hb, hb0⟩ | ⟨hb, hb0⟩ <;> rw [hb] at h1 h1'
    · have : b ≤ (q' - q) * b := by nlinarith
      have e : (q' - q) * b = (a - q * b) - (a - q' * b) := by ring
      omega
    · have : (q' - q) * b ≤ b := by nlinarith
      have e : (q' - q) * b = (a - q * b) - (a - q' * b) := by ring
      omega
  · have hd : 1 ≤ q - q' := by omega
    rcases abs_cases b with ⟨hb, hb0⟩ | ⟨hb, hb0⟩ <;> rw [hb] at h1 h1'
    · have : b ≤ (q - q') * b := by nlinarith
      have e : (q - q') * b = (a - q' * b) - (a - q * b) := by ring
      omega
    · have : (q - q') * b ≤ b := by nlinarith
      have e : (q - q') * b = (a - q' * b) - (a - q * b) := by ring
      omega

/-- The range check and store shared by the square, add, subtract and multiply
branches, for an exact wide result `r` and a writable result slot `i`. -/
theorem checked_store (buf : UserBuf) (i : Nat) (r : Int) (hw : buf.writable i = true) :
    (((if r > INT_MAX ∨ r < INT_MIN then (-EINVAL, buf)
          else put_user buf i (cast_int r)).1 = 0 ∧
        (if r > INT_MAX ∨ r < INT_MIN then (-EINVAL, buf)
          else put_user buf i (cast_int r)).2.val i = r) ↔ IsInt32 r) ∧
    (¬ IsInt32 r →
      (if r > INT_MAX ∨ r < INT_MIN then (-EINVAL, buf)
          else put_user buf i (cast_int r)).1 = -EINVAL) ∧
    ((if r > INT_MAX ∨ r < INT_MIN then (-EINVAL, buf)
          else put_user buf i (cast_int r)).1 = 0 →
      (if r > INT_MAX ∨ r < INT_MIN then (-EINVAL, buf)
          else put_user buf i (cast_int r)).2.val i = r) := by
  by_cases hf : r > INT_MAX ∨ r < INT_MIN
  · have hn : ¬ IsInt32 r := by
      unfold IsInt32
      rcases hf with h | h
      · exact fun hr => absurd hr.2 (not_le.2 h)
      · exact fun hr => absurd hr.1 (not_le.2 h)
    rw [if_pos hf]
    refine ⟨⟨fun h => ?_, fun h => absurd h hn⟩, fun _ => rfl, fun h => ?_⟩
    · simp [EINVAL] at h
    · simp [EINVAL] at h
  · have hr : IsInt32 r := by
      unfold IsInt32
      rw [not_or, not_lt, not_lt] at hf
      exact ⟨hf.2, hf.1⟩
    rw [if_neg hf, put_user_ok buf i _ hw]
    have hc : cast_int r = r := wrap32_eq_self hr
    refine ⟨⟨fun _ => hr, fun _ => ⟨rfl, ?_⟩⟩, fun h => absurd hr h, fun _ => ?_⟩ <;>
      simp [hc]

/-! ## The arithmetic contracts of `math_ioctl` -/

/-- C1 (Divide). With readable operand slots, a writable result slot and a
signed 32-bit dividend `a` in slot 0 and divisor `b` in slot 1,
`MATH_IOCTL_DIV` returns `-EINVAL` exactly when `b = 0` or (`a = INT_MIN` and
`b = -1`); in every other case it returns 0 and slot 2 then holds the quotient
truncated toward zero, which is the only `q` whose remainder `a - q * b` is
smaller than `b` in absolute value and zero or of the sign of `a`. -/
theorem math_ioctl_div_contract (k : IoctlCodes) (hk : k.Distinct) (buf : UserBuf)
    (hr0 : buf.readable 0 = true) (hr1 : buf.readable 1 = true)
    (hw2 : buf.writable 2 = true) (ha : IsInt32 (buf.val 0)) :
    ((math_ioctl k k.MATH_IOCTL_DIV buf).1 = -EINVAL ↔
        (buf.val 1 = 0 ∨ (buf.val 0 = INT_MIN ∧ buf.val 1 = -1))) ∧
    (¬ (buf.val 1 = 0 ∨ (buf.val 0 = INT_MIN ∧ buf.val 1 = -1)) →
        (math_ioctl k k.MATH_IOCTL_DIV buf).1 = 0 ∧
        IsTruncQuot (buf.val 0) (buf.val 1) ((math_ioctl k k.MATH_IOCTL_DIV buf).2.val 2) ∧
        ∀ q, IsTruncQuot (buf.val 0) (buf.val 1) q →
          q = (math_ioctl k k.MATH_IOCTL_DIV buf).2.val 2) := by
  rw [math_ioctl_div_eval k hk buf hr0 hr1]
  by_cases hf : buf.val 1 = 0 ∨ (buf.val 0 = INT_MIN ∧ buf.val 1 = -1)
  · rw [if_pos hf]
    exact ⟨⟨fun _ => hf, fun _ => rfl⟩, fun h => absurd hf h⟩
  · rw [if_neg hf, put_user_ok buf 2 _ hw2]
    have hb0 : buf.val 1 ≠ 0 := fun h => hf (Or.inl h)
    have hq : div_int (buf.val 0) (buf.val 1) = Int.tdiv (buf.val 0) (buf.val 1) :=
      wrap32_eq_self (tdiv_bounds ha hb0 (fun h => hf (Or.inr h)))
    refine ⟨⟨fun h => ?_, fun h => absurd h hf⟩, fun _ => ⟨rfl, ?_, ?_⟩⟩
    · simp [EINVAL] at h
    · simp only [if_true, hq]
      exact tdiv_isTruncQuot _ _ hb0
    · intro q hq'
      simp only [if_true, hq]
      exact isTruncQuot_unique hq' (tdiv_isTruncQuot _ _ hb0)

theorem math_ioctl_div_contract_witness :
    sampleCodes.Distinct ∧ (mkBuf 200 (-3) 0).readable 0 = true ∧
    (mkBuf 200 (-3) 0).readable 1 = true ∧ (mkBuf 200 (-3) 0).writable 2 = true ∧
    IsInt32 ((mkBuf 200 (-3) 0).val 0) ∧
    (math_ioctl sampleCodes sampleCodes.MATH_IOCTL_DIV (mkBuf 200 (-3) 0)).2.val 2 = -66 ∧
    (((math_ioctl sampleCodes sampleCodes.MATH_IOCTL_DIV (mkBuf 200 (-3) 0)).1 = -EINVAL ↔
        ((mkBuf 200 (-3) 0).val 1 = 0 ∨
          ((mkBuf 200 (-3) 0).val 0 = INT_MIN ∧ (mkBuf 200 (-3) 0).val 1 = -1))) ∧
    (¬ ((mkBuf 200 (-3) 0).val 1 = 0 ∨
          ((mkBuf 200 (-3) 0).val 0 = INT_MIN ∧ (mkBuf 200 (-3) 0).val 1 = -1)) →
        (math_ioctl sampleCodes sampleCodes.MATH_IOCTL_DIV (mkBuf 200 (-3) 0)).1 = 0 ∧
        IsTruncQuot ((mkBuf 200 (-3) 0).val 0) ((mkBuf 200 (-3) 0).val 1)
          ((math_ioctl sampleCodes sampleCodes.MATH_IOCTL_DIV (mkBuf 200 (-3) 0)).2.val 2) ∧
        ∀ q, IsTruncQuot ((mkBuf 200 (-3) 0).val 0) ((mkBuf 200 (-3) 0).val 1) q →
          q = (math_ioctl sampleCodes sampleCodes.MATH_IOCTL_DIV (mkBuf 200 (-3) 0)).2.val 2)) :=
  ⟨by decide, rfl, rfl, rfl, by decide, by decide,
    math_ioctl_div_contract sampleCodes (by decide) (mkBuf 200 (-3) 0) rfl rfl rfl (by decide)⟩

/-- C2 (Multiply). With readable operand slots, a writable result slot and
signed 32-bit operands `a`, `b`, `MATH_IOCTL_MUL` returns 0 with the exact
product `a * b` in slot 2 exactly when `a * b` is a signed 32-bit value, and
returns `-EINVAL` otherwise; whenever it returns 0 the stored value is the
exact product, never a wrapped one. -/
theorem math_ioctl_mul_contract (k : IoctlCodes) (hk : k.Distinct) (buf : UserBuf)
    (hr0 : buf.readable 0 = true) (hr1 : buf.readable 1 = true)
    (hw2 : buf.writable 2 = true) (ha : IsInt32 (buf.val 0)) (hb : IsInt32 (buf.val 1)) :
    (((math_ioctl k k.MATH_IOCTL_MUL buf).1 = 0 ∧
        (math_ioctl k k.MATH_IOCTL_MUL buf).2.val 2 = buf.val 0 * buf.val 1) ↔
      IsInt32 (buf.val 0 * buf.val 1)) ∧
    (¬ IsInt32 (buf.val 0 * buf.val 1) → (math_ioctl k k.MATH_IOCTL_MUL buf).1 = -EINVAL) ∧
    ((math_ioctl k k.MATH_IOCTL_MUL buf).1 = 0 →
      (math_ioctl k k.MATH_IOCTL_MUL buf).2.val 2 = buf.val 0 * buf.val 1) := by
  rw [math_ioctl_mul_eval k hk buf hr0 hr1, mul_ll_exact ha hb]
  exact checked_store buf 2 _ hw2

theorem math_ioctl_mul_contract_witness :
    sampleCodes.Distinct ∧ (mkBuf 2 3 0).readable 0 = true ∧
    (mkBuf 2 3 0).readable 1 = true ∧ (mkBuf 2 3 0).writable 2 = true ∧
    IsInt32 ((mkBuf 2 3 0).val 0) ∧ IsInt32 ((mkBuf 2 3 0).val 1) ∧
    (math_ioctl sampleCodes sampleCodes.MATH_IOCTL_MUL (mkBuf 2 3 0)).2.val 2 = 6 ∧
    (math_ioctl sampleCodes sampleCodes.MATH_IOCTL_MUL (mkBuf 65536 32768 0)).1 = -EINVAL ∧
    ((((math_ioctl sampleCodes sampleCodes.MATH_IOCTL_MUL (mkBuf 2 3 0)).1 = 0 ∧
        (math_ioctl sampleCodes sampleCodes.MATH_IOCTL_MUL (mkBuf 2 3 0)).2.val 2 =
          (mkBuf 2 3 0).val 0 * (mkBuf 2 3 0).val 1) ↔
      IsInt32 ((mkBuf 2 3 0).val 0 * (mkBuf 2 3 0).val 1)) ∧
    (¬ IsInt32 ((mkBuf 2 3 0).val 0 * (mkBuf 2 3 0).val 1) →
      (math_ioctl sampleCodes sampleCodes.MATH_IOCTL_MUL (mkBuf 2 3 0)).1 = -EINVAL) ∧
    ((math_ioctl sampleCodes sampleCodes.MATH_IOCTL_MUL (mkBuf 2 3 0)).1 = 0 →
      (math_ioctl sampleCodes sampleCodes.MATH_IOCTL_MUL (mkBuf 2 3 0)).2.val 2 =
        (mkBuf 2 3 0).val 0 * (mkBuf 2 3 0).val 1)) :=
  ⟨by decide, rfl, rfl, rfl, by decide, by decide, by decide, by decide,
    math_ioctl_mul_contract sampleCodes (by decide) (mkBuf 2 3 0) rfl rfl rfl
      (by decide) (by decide)⟩

/-- C3 (Square). With a readable operand slot, a writable result slot and a
signed 32-bit operand `a`, `MATH_IOCTL_SQR` returns 0 with exactly `a * a` in
slot 1 exactly when `a * a ≤ 2^31 - 1`, and returns `-EINVAL` for every other
`a`. -/
theorem math_ioctl_sqr_contract (k : IoctlCodes) (buf : UserBuf)
    (hr0 : buf.readable 0 = true) (hw1 : buf.writable 1 = true)
    (ha : IsInt32 (buf.val 0)) :
    (((math_ioctl k k.MATH_IOCTL_SQR buf).1 = 0 ∧
        (math_ioctl k k.MATH_IOCTL_SQR buf).2.val 1 = buf.val 0 * buf.val 0) ↔
      buf.val 0 * buf.val 0 ≤ INT_MAX) ∧
    (¬ buf.val 0 * buf.val 0 ≤ INT_MAX → (math_ioctl k k.MATH_IOCTL_SQR buf).1 = -EINVAL) := by
  have hrange : IsInt32 (buf.val 0 * buf.val 0) ↔ buf.val 0 * buf.val 0 ≤ INT_MAX := by
    have h0 := mul_self_nonneg (buf.val 0)
    unfold IsInt32 INT_MIN
    exact ⟨fun h => h.2, fun h => ⟨by omega, h⟩⟩
  rw [math_ioctl_sqr_eval k buf hr0, mul_ll_exact ha ha, ← hrange]
  exact ⟨(checked_store buf 1 _ hw1).1, (checked_store buf 1 _ hw1).2.1⟩

theorem math_ioctl_sqr_contract_witness :
    (mkBuf 1073741824 0 0).readable 0 = true ∧ (mkBuf 1073741824 0 0).writable 1 = true ∧
    IsInt32 ((mkBuf 1073741824 0 0).val 0) ∧
    (math_ioctl sampleCodes sampleCodes.MATH_IOCTL_SQR (mkBuf 1073741824 0 0)).1 = -EINVAL ∧
    (math_ioctl sampleCodes sampleCodes.MATH_IOCTL_SQR (mkBuf (INT_MAX / 2) 0 0)).1 = -EINVAL ∧
    (math_ioctl sampleCodes sampleCodes.MATH_IOCTL_SQR (mkBuf 2 0 0)).2.val 1 = 4 ∧
    ((((math_ioctl sampleCodes sampleCodes.MATH_IOCTL_SQR (mkBuf 1073741824 0 0)).1 = 0 ∧
        (math_ioctl sampleCodes sampleCodes.MATH_IOCTL_SQR (mkBuf 1073741824 0 0)).2.val 1 =
          (mkBuf 1073741824 0 0).val 0 * (mkBuf 1073741824 0 0).val 0) ↔
      (mkBuf 1073741824 0 0).val 0 * (mkBuf 1073741824 0 0).val 0 ≤ INT_MAX) ∧
    (¬ (mkBuf 1073741824 0 0).val 0 * (mkBuf 1073741824 0 0).val 0 ≤ INT_MAX →
      (math_ioctl sampleCodes sampleCodes.MATH_IOCTL_SQR (mkBuf 1073741824 0 0)).1 = -EINVAL)) :=
  ⟨rfl, rfl, by decide, by decide, by decide, by decide,
    math_ioctl_sqr_contract sampleCodes (mkBuf 1073741824 0 0) rfl rfl (by decide)⟩

/-- C4 (Add). With readable operand slots, a writable result slot and signed
32-bit operands `a`, `b`, `MATH_IOCTL_ADD` returns 0 with the exact sum `a + b`
in slot 2 exactly when `a + b` is a signed 32-bit value, and returns `-EINVAL`
otherwise. -/
theorem math_ioctl_add_contract (k : IoctlCodes) (hk : k.Distinct) (buf : UserBuf)
    (hr0 : buf.readable 0 = true) (hr1 : buf.readable 1 = true)
    (hw2 : buf.writable 2 = true) (ha : IsInt32 (buf.val 0)) (hb : IsInt32 (buf.val 1)) :
    (((math_ioctl k k.MATH_IOCTL_ADD buf).1 = 0 ∧
        (math_ioctl k k.MATH_IOCTL_ADD buf).2.val 2 = buf.val 0 + buf.val 1) ↔
      IsInt32 (buf.val 0 + buf.val 1)) ∧
    (¬ IsInt32 (buf.val 0 + buf.val 1) → (math_ioctl k k.MATH_IOCTL_ADD buf).1 = -EINVAL) := by
  rw [math_ioctl_add_eval k hk buf hr0 hr1, add_ll_exact ha hb]
  exact ⟨(checked_store buf 2 _ hw2).1, (checked_store buf 2 _ hw2).2.1⟩

theorem math_ioctl_add_contract_witness :
    sampleCodes.Distinct ∧ (mkBuf INT_MAX 2 0).readable 0 = true ∧
    (mkBuf INT_MAX 2 0).readable 1 = true ∧ (mkBuf INT_MAX 2 0).writable 2 = true ∧
    IsInt32 ((mkBuf INT_MAX 2 0).val 0) ∧ IsInt32 ((mkBuf INT_MAX 2 0).val 1) ∧
    (math_ioctl sampleCodes sampleCodes.MATH_IOCTL_ADD (mkBuf INT_MAX 2 0)).1 = -EINVAL ∧
    (math_ioctl sampleCodes sampleCodes.MATH_IOCTL_ADD (mkBuf 2 (-5) 0)).2.val 2 = -3 ∧
    ((((math_ioctl sampleCodes sampleCodes.MATH_IOCTL_ADD (mkBuf INT_MAX 2 0)).1 = 0 ∧
        (math_ioctl sampleCodes sampleCodes.MATH_IOCTL_ADD (mkBuf INT_MAX 2 0)).2.val 2 =
          (mkBuf INT_MAX 2 0).val 0 + (mkBuf INT_MAX 2 0).val 1) ↔
      IsInt32 ((mkBuf INT_MAX 2 0).val 0 + (mkBuf INT_MAX 2 0).val 1)) ∧
    (¬ IsInt32 ((mkBuf INT_MAX 2 0).val 0 + (mkBuf INT_MAX 2 0).val 1) →
      (math_ioctl sampleCodes sampleCodes.MATH_IOCTL_ADD (mkBuf INT_MAX 2 0)).1 = -EINVAL)) :=
  ⟨by decide, rfl, rfl, rfl, by decide, by decide, by decide, by decide,
    math_ioctl_add_contract sampleCodes (by decide) (mkBuf INT_MAX 2 0) rfl rfl rfl
      (by decide) (by decide)⟩

/-- C5 (Subtract). With readable operand slots, a writable result slot and
signed 32-bit operands `a`, `b`, `MATH_IOCTL_SUB` returns 0 with the exact
difference `a - b` in slot 2 exactly when `a - b` is a signed 32-bit value, and
returns `-EINVAL` otherwise. -/
theorem math_ioctl_sub_contract (k : IoctlCodes) (hk : k.Distinct) (buf : UserBuf)
    (hr0 : buf.readable 0 = true) (hr1 : buf.readable 1 = true)
    (hw2 : buf.writable 2 = true) (ha : IsInt32 (buf.val 0)) (hb : IsInt32 (buf.val 1)) :
    (((math_ioctl k k.MATH_IOCTL_SUB buf).1 = 0 ∧
        (math_ioctl k k.MATH_IOCTL_SUB buf).2.val 2 = buf.val 0 - buf.val 1) ↔
      IsInt32 (buf.val 0 - buf.val 1)) ∧
    (¬ IsInt32 (buf.val 0 - buf.val 1) → (math_ioctl k k.MATH_IOCTL_SUB buf).1 = -EINVAL) := by
  rw [math_ioctl_sub_eval k hk buf hr0 hr1, sub_ll_exact ha hb]
  exact ⟨(checked_store buf 2 _ hw2).1, (checked_store buf 2 _ hw2).2.1⟩

theorem math_ioctl_sub_contract_witness :
    sampleCodes.Distinct ∧ (mkBuf 2 (-2) 0).readable 0 = true ∧
    (mkBuf 2 (-2) 0).readable 1 = true ∧ (mkBuf 2 (-2) 0).writable 2 = true ∧
    IsInt32 ((mkBuf 2 (-2) 0).val 0) ∧ IsInt32 ((mkBuf 2 (-2) 0).val 1) ∧
    (math_ioctl sampleCodes sampleCodes.MATH_IOCTL_SUB (mkBuf 2 (-2) 0)).2.val 2 = 4 ∧
    (math_ioctl sampleCodes sampleCodes.MATH_IOCTL_SUB (mkBuf INT_MIN 1 0)).1 = -EINVAL ∧
    ((((math_ioctl sampleCodes sampleCodes.MATH_IOCTL_SUB (mkBuf 2 (-2) 0)).1 = 0 ∧
        (math_ioctl sampleCodes sampleCodes.MATH_IOCTL_SUB (mkBuf 2 (-2) 0)).2.val 2 =
          (mkBuf 2 (-2) 0).val 0 - (mkBuf 2 (-2) 0).val 1) ↔
      IsInt32 ((mkBuf 2 (-2) 0).val 0 - (mkBuf 2 (-2) 0).val 1)) ∧
    (¬ IsInt32 ((mkBuf 2 (-2) 0).val 0 - (mkBuf 2 (-2) 0).val 1) →
      (math_ioctl sampleCodes sampleCodes.MATH_IOCTL_SUB (mkBuf 2 (-2) 0)).1 = -EINVAL)) :=
  ⟨by decide, rfl, rfl, rfl, by decide, by decide, by decide, by decide,
    math_ioctl_sub_contract sampleCodes (by decide) (mkBuf 2 (-2) 0) rfl rfl rfl
      (by decide) (by decide)⟩

/-- C6 (Negate). With a readable operand slot, a writable result slot and a
signed 32-bit operand `a`, `MATH_IOCTL_NEG` returns 0 with `-a` in slot 1 for
every `a` other than `INT_MIN`, and returns `-EINVAL` for `a = INT_MIN` and for
no other operand. -/
theorem math_ioctl_neg_contract (k : IoctlCodes) (hk : k.Distinct) (buf : UserBuf)
    (hr0 : buf.readable 0 = true) (hw1 : buf.writable 1 = true)
    (ha : IsInt32 (buf.val 0)) :
    (buf.val 0 ≠ INT_MIN →
      (math_ioctl k k.MATH_IOCTL_NEG buf).1 = 0 ∧
        (math_ioctl k k.MATH_IOCTL_NEG buf).2.val 1 = -buf.val 0) ∧
    ((math_ioctl k k.MATH_IOCTL_NEG buf).1 = -EINVAL ↔ buf.val 0 = INT_MIN) := by
  rw [math_ioctl_neg_eval k hk buf hr0]
  by_cases hm : buf.val 0 = INT_MIN
  · rw [if_pos hm]
    exact ⟨fun h => absurd hm h, fun _ => hm, fun _ => rfl⟩
  · rw [if_neg hm, put_user_ok buf 1 _ hw1]
    have hn : neg_int (buf.val 0) = -buf.val 0 := by
      unfold IsInt32 INT_MIN INT_MAX at ha
      unfold INT_MIN at hm
      exact wrap32_eq_self ⟨by unfold INT_MIN; omega, by unfold INT_MAX; omega⟩
    refine ⟨fun _ => ⟨rfl, ?_⟩, fun h => ?_, fun h => absurd h hm⟩
    · simp [hn]
    · simp [EINVAL] at h

theorem math_ioctl_neg_contract_witness :
    sampleCodes.Distinct ∧ (mkBuf 4 0 0).readable 0 = true ∧
    (mkBuf 4 0 0).writable 1 = true ∧ IsInt32 ((mkBuf 4 0 0).val 0) ∧
    (math_ioctl sampleCodes sampleCodes.MATH_IOCTL_NEG (mkBuf 4 0 0)).2.val 1 = -4 ∧
    (math_ioctl sampleCodes sampleCodes.MATH_IOCTL_NEG (mkBuf INT_MIN 0 0)).1 = -EINVAL ∧
    (((mkBuf 4 0 0).val 0 ≠ INT_MIN →
      (math_ioctl sampleCodes sampleCodes.MATH_IOCTL_NEG (mkBuf 4 0 0)).1 = 0 ∧
        (math_ioctl sampleCodes sampleCodes.MATH_IOCTL_NEG (mkBuf 4 0 0)).2.val 1 =
          -(mkBuf 4 0 0).val 0) ∧
    ((math_ioctl sampleCodes sampleCodes.MATH_IOCTL_NEG (mkBuf 4 0 0)).1 = -EINVAL ↔
      (mkBuf 4 0 0).val 0 = INT_MIN)) :=
  ⟨by decide, rfl, rfl, by decide, by decide, by decide,
    math_ioctl_neg_contract sampleCodes (by decide) (mkBuf 4 0 0) rfl rfl (by decide)⟩

/-! ## Unrecognised commands -/

/-- C7, counterexample. Under the sample numbering the unrecognised command 7
gets the very status that the arithmetic faults `Div(1, 0)` and
`Neg(INT_MIN)` get: the two kinds of fault are not told apart. -/
theorem unknown_op_status_counterexample :
    7 ∉ sampleCodes.all ∧
    (math_ioctl sampleCodes 7 (mkBuf 0 0 0)).1 =
      (math_ioctl sampleCodes sampleCodes.MATH_IOCTL_DIV (mkBuf 1 0 0)).1 ∧
    (math_ioctl sampleCodes 7 (mkBuf 0 0 0)).1 =
      (math_ioctl sampleCodes sampleCodes.MATH_IOCTL_NEG (mkBuf INT_MIN 0 0)).1 := by
  decide

/-- C7, as amended. For every command outside the six recognised ones and
every operand buffer, `math_ioctl` returns `-EINVAL`, which is also the status
of an arithmetic fault such as a division by zero or the negation of
`INT_MIN`. -/
theorem unknown_op_same_status (k : IoctlCodes) (hk : k.Distinct) (cmd : Nat)
    (hcmd : cmd ∉ k.all) (buf bufD bufN : UserBuf)
    (hD0 : bufD.readable 0 = true) (hD1 : bufD.readable 1 = true) (hD : bufD.val 1 = 0)
    (hN0 : bufN.readable 0 = true) (hN : bufN.val 0 = INT_MIN) :
    (math_ioctl k cmd buf).1 = -EINVAL ∧
    (math_ioctl k cmd buf).1 = (math_ioctl k k.MATH_IOCTL_DIV bufD).1 ∧
    (math_ioctl k cmd buf).1 = (math_ioctl k k.MATH_IOCTL_NEG bufN).1 := by
  rw [math_ioctl_default_eval k cmd hcmd buf, math_ioctl_div_eval k hk bufD hD0 hD1,
    math_ioctl_neg_eval k hk bufN hN0, if_pos (Or.inl hD), if_pos hN]
  exact ⟨rfl, rfl, rfl⟩

theorem unknown_op_same_status_witness :
    sampleCodes.Distinct ∧ 0 ∉ sampleCodes.all ∧
    (mkBuf 1 0 0).readable 0 = true ∧ (mkBuf 1 0 0).readable 1 = true ∧
    (mkBuf 1 0 0).val 1 = 0 ∧ (mkBuf INT_MIN 0 0).readable 0 = true ∧
    (mkBuf INT_MIN 0 0).val 0 = INT_MIN ∧
    ((math_ioctl sampleCodes 0 (mkBuf 5 6 7)).1 = -EINVAL ∧
    (math_ioctl sampleCodes 0 (mkBuf 5 6 7)).1 =
      (math_ioctl sampleCodes sampleCodes.MATH_IOCTL_DIV (mkBuf 1 0 0)).1 ∧
    (math_ioctl sampleCodes 0 (mkBuf 5 6 7)).1 =
      (math_ioctl sampleCodes sampleCodes.MATH_IOCTL_NEG (mkBuf INT_MIN 0 0)).1) :=
  ⟨by decide, by decide, rfl, rfl, rfl, rfl, rfl,
    unknown_op_same_status sampleCodes (by decide) 0 (by decide) (mkBuf 5 6 7) (mkBuf 1 0 0)
      (mkBuf INT_MIN 0 0) rfl rfl rfl rfl rfl⟩

/-- C8 (unrecognised commands are rejected at once). For every command that is
not one of the six recognised ones and every operand buffer, `math_ioctl`
returns a failure status and the buffer it was given, unchanged; the status is
the same for every other buffer, readable or not, so no slot is read into the
outcome and none is written. -/
theorem unknown_op_rejected (k : IoctlCodes) (cmd : Nat) (hcmd : cmd ∉ k.all)
    (buf : UserBuf) :
    (math_ioctl k cmd buf).1 < 0 ∧ (math_ioctl k cmd buf).2 = buf ∧
    ∀ other : UserBuf, (math_ioctl k cmd other).1 = (math_ioctl k cmd buf).1 := by
  refine ⟨?_, ?_, fun other => ?_⟩
  · rw [math_ioctl_default_eval k cmd hcmd buf]; simp [EINVAL]
  · rw [math_ioctl_default_eval k cmd hcmd buf]
  · rw [math_ioctl_default_eval k cmd hcmd buf, math_ioctl_default_eval k cmd hcmd other]

theorem unknown_op_rejected_witness :
    9 ∉ sampleCodes.all ∧
    ((math_ioctl sampleCodes 9 ⟨fun _ => 0, fun _ => false, fun _ => false⟩).1 < 0 ∧
    (math_ioctl sampleCodes 9 ⟨fun _ => 0, fun _ => false, fun _ => false⟩).2 =
      ⟨fun _ => 0, fun _ => false, fun _ => false⟩ ∧
    ∀ other : UserBuf, (math_ioctl sampleCodes 9 other).1 =
      (math_ioctl sampleCodes 9 ⟨fun _ => 0, fun _ => false, fun _ => false⟩).1) :=
  ⟨by decide, unknown_op_rejected sampleCodes 9 (by decide)
    ⟨fun _ => 0, fun _ => false, fun _ => false⟩⟩

/-! ## Admission control -/

theorem math_open_granted {c : Int} (hc : IsInt32 c) (hpos : 0 < c) :
    math_open c = (0, c - 1) := by
  have hw : wrap32 (c - 1) = c - 1 := by
    unfold IsInt32 INT_MIN INT_MAX at hc
    exact wrap32_eq_self ⟨by unfold INT_MIN; omega, by unfold INT_MAX; omega⟩
  simp only [math_open, atomic_dec_return, hw]
  rw [if_neg (by omega)]

theorem math_open_denied {c : Int} (hc : IsInt32 c) (hmin : c ≠ INT_MIN) (hle : c ≤ 0) :
    math_open c = (-EBUSY, c) := by
  unfold IsInt32 INT_MIN INT_MAX at hc
  unfold INT_MIN at hmin
  have hw : wrap32 (c - 1) = c - 1 :=
    wrap32_eq_self ⟨by unfold INT_MIN; omega, by unfold INT_MAX; omega⟩
  have hw' : wrap32 (c - 1 + 1) = c :=
    (congrArg wrap32 (by ring)).trans
      (wrap32_eq_self ⟨by unfold INT_MIN; omega, by unfold INT_MAX; omega⟩)
  simp only [math_open, atomic_dec_return, atomic_inc, hw]
  rw [if_pos (by omega), hw']

theorem math_open_wraps : math_open INT_MIN = (0, INT_MAX) := by decide

/-- C9 (session open as one step). For every value `c` the counter can hold,
`math_open` returns 0 and leaves the counter at `c - 1` exactly when `c > 0`;
when `c = 0` it returns `-EBUSY` and the counter on return is `c` again, as
it does for every `c ≤ 0` above `INT_MIN`. -/
theorem math_open_contract (c : Int) (hc : IsInt32 c) :
    (((math_open c).1 = 0 ∧ (math_open c).2 = c - 1) ↔ 0 < c) ∧
    (c = 0 → (math_open c).1 = -EBUSY ∧ (math_open c).2 = c) ∧
    (c ≠ INT_MIN → c ≤ 0 → (math_open c).1 = -EBUSY ∧ (math_open c).2 = c) := by
  refine ⟨?_, ?_, fun hmin hle => by rw [math_open_denied hc hmin hle]; exact ⟨rfl, rfl⟩⟩
  · constructor
    · rintro ⟨h1, h2⟩
      by_contra hle
      rw [not_lt] at hle
      by_cases hmin : c = INT_MIN
      · subst hmin
        rw [math_open_wraps] at h2
        revert h2
        decide
      · rw [math_open_denied hc hmin hle] at h1
        simp [EBUSY] at h1
    · intro hpos
      rw [math_open_granted hc hpos]
      exact ⟨rfl, rfl⟩
  · intro h0
    subst h0
    decide

theorem math_open_contract_witness :
    IsInt32 1 ∧
    ((((math_open 1).1 = 0 ∧ (math_open 1).2 = 1 - 1) ↔ (0 : Int) < 1) ∧
    ((1 : Int) = 0 → (math_open 1).1 = -EBUSY ∧ (math_open 1).2 = 1) ∧
    ((1 : Int) ≠ INT_MIN → (1 : Int) ≤ 0 → (math_open 1).1 = -EBUSY ∧ (math_open 1).2 = 1)) :=
  ⟨by decide, math_open_contract 1 (by decide)⟩

theorem math_release_eval {c : Int} (hc : IsInt32 c) (hmax : c ≠ INT_MAX) :
    math_release c = (0, c + 1) := by
  unfold IsInt32 INT_MIN INT_MAX at hc
  unfold INT_MAX at hmax
  have hw : wrap32 (c + 1) = c + 1 :=
    wrap32_eq_self ⟨by unfold INT_MIN; omega, by unfold INT_MAX; omega⟩
  simp only [math_release, atomic_inc, hw]

theorem boot_inv (err : Int) : CapacityInv (boot err) := by
  have h4 : (math_init err 0).2 = 4 := by
    unfold math_init atomic_set MAX_USERS
    by_cases h : err < 0 <;> simp [h]
  unfold CapacityInv boot MAX_USERS
  refine ⟨by simp, ?_, List.nodup_nil, by simp⟩
  simp [h4]

/-- One call keeps the accounting, a `release` being of a session that is
granted and not yet closed. -/
theorem step_inv (s : Sys) (c : Call) (hinv : CapacityInv s)
    (hm : ∀ sid, c = .do_release sid → sid ∈ s.active) : CapacityInv (s.step c) := by
  obtain ⟨hlen, hnum, hnd, hids⟩ := hinv
  unfold MAX_USERS at hlen hnum
  have hc : IsInt32 s.user_num := by
    unfold IsInt32 INT_MIN INT_MAX; omega
  cases c with
  | do_open =>
    rcases lt_or_le 0 s.user_num with hpos | hle
    · have ho := math_open_granted hc hpos
      simp only [Sys.step, ho, if_true]
      refine ⟨?_, ?_, ?_, ?_⟩
      · unfold MAX_USERS; simp only [List.length_cons]; push_cast; omega
      · unfold MAX_USERS; simp only [List.length_cons]; push_cast; omega
      · exact List.nodup_cons.2 ⟨fun hmem => absurd (hids _ hmem) (lt_irrefl _), hnd⟩
      · intro sid hsid
        rcases List.mem_cons.1 hsid with h | h
        · exact h ▸ Nat.lt_succ_self _
        · exact Nat.lt_succ_of_lt (hids sid h)
    · have ho := math_open_denied hc (by unfold INT_MIN; omega) hle
      have hne : ¬ (-EBUSY = 0) := by decide
      simp only [Sys.step, ho, if_neg hne]
      exact ⟨by unfold MAX_USERS; exact hlen, by unfold MAX_USERS; exact hnum, hnd,
        fun sid hsid => Nat.lt_succ_of_lt (hids sid hsid)⟩
  | do_release sid =>
    have hmem := hm sid rfl
    have hpos : 0 < s.active.length := List.length_pos_of_mem hmem
    have hr := math_release_eval hc (by unfold INT_MAX; omega)
    have hlen' : (s.active.erase sid).length = s.active.length - 1 :=
      List.length_erase_of_mem hmem
    simp only [Sys.step, hr]
    refine ⟨?_, ?_, hnd.erase sid, ?_⟩
    · unfold MAX_USERS; rw [hlen']; omega
    · unfold MAX_USERS; dsimp only; rw [hlen']; omega
    · intro x hx
      exact Nat.lt_succ_of_lt (hids x (List.mem_of_mem_erase hx))

theorem run_take_inv (tr : List Call) : ∀ (s : Sys), CapacityInv s → Matched s tr →
    ∀ n, CapacityInv (s.run (tr.take n)) := by
  induction tr with
  | nil => intro s hinv _ n; simpa [Sys.run] using hinv
  | cons c rest ih =>
    intro s hinv hm n
    cases n with
    | zero => simpa [Sys.run] using hinv
    | succ n =>
      have hstep : CapacityInv (s.step c) ∧ Matched (s.step c) rest := by
        cases c with
        | do_open => exact ⟨step_inv s _ hinv (fun sid h => by cases h), hm⟩
        | do_release sid =>
          exact ⟨step_inv s _ hinv (fun sid' h => by cases h; exact hm.1), hm.2⟩
      simpa [Sys.run] using ih (s.step c) hstep.1 hstep.2 n

/-- C10 (capacity invariant over call sequences). Starting from the state
`math_init` sets, after every prefix of a sequence of `math_open` and
`math_release` calls in which each `math_release` closes a distinct session
that was granted and is not yet closed, at most 4 sessions are granted and
unclosed, the counter equals 4 minus their number, and so lies in `[0, 4]`. -/
theorem capacity_invariant (err : Int) (tr : List Call) (hm : Matched (boot err) tr)
    (n : Nat) :
    (((boot err).run (tr.take n)).active.length : Int) ≤ 4 ∧
    ((boot err).run (tr.take n)).user_num = 4 - ((boot err).run (tr.take n)).active.length ∧
    0 ≤ ((boot err).run (tr.take n)).user_num ∧ ((boot err).run (tr.take n)).user_num ≤ 4 := by
  obtain ⟨h1, h2, -, -⟩ := run_take_inv tr (boot err) (boot_inv err) hm n
  unfold MAX_USERS at h1 h2
  exact ⟨h1, h2, by omega, by omega⟩

theorem capacity_invariant_witness :
    Matched (boot 0)
      [.do_open, .do_open, .do_release 0, .do_open, .do_open, .do_open, .do_open,
        .do_release 1, .do_open] ∧
    ((boot 0).run [.do_open, .do_open, .do_release 0, .do_open, .do_open, .do_open]).user_num
      = 0 ∧
    ((((boot 0).run
        ([.do_open, .do_open, .do_release 0, .do_open, .do_open, .do_open, .do_open,
          .do_release 1, .do_open].take 7)).active.length : Int) ≤ 4 ∧
    ((boot 0).run
        ([.do_open, .do_open, .do_release 0, .do_open, .do_open, .do_open, .do_open,
          .do_release 1, .do_open].take 7)).user_num =
      4 - ((boot 0).run
        ([.do_open, .do_open, .do_release 0, .do_open, .do_open, .do_open, .do_open,
          .do_release 1, .do_open].take 7)).active.length ∧
    0 ≤ ((boot 0).run
        ([.do_open, .do_open, .do_release 0, .do_open, .do_open, .do_open, .do_open,
          .do_release 1, .do_open].take 7)).user_num ∧
    ((boot 0).run
        ([.do_open, .do_open, .do_release 0, .do_open, .do_open, .do_open, .do_open,
          .do_release 1, .do_open].take 7)).user_num ≤ 4) :=
  ⟨by decide, by decide,
    capacity_invariant 0
      [.do_open, .do_open, .do_release 0, .do_open, .do_open, .do_open, .do_open,
        .do_release 1, .do_open] (by decide) 7⟩

/-! ## The quota scenario -/

theorem boot_eq (err : Int) : boot err = ⟨4, [], 0⟩ := by
  have h4 : (math_init err 0).2 = 4 := by
    unfold math_init atomic_set MAX_USERS
    by_cases h : err < 0 <;> simp [h]
  unfold boot
  rw [h4]

theorem run_inv (s : Sys) (tr : List Call) (hinv : CapacityInv s) (hm : Matched s tr) :
    CapacityInv (s.run tr) := by
  have h := run_take_inv tr s hinv hm tr.length
  rwa [List.take_length] at h

theorem capacityInv_counter {s : Sys} (hinv : CapacityInv s) :
    IsInt32 s.user_num ∧ 0 ≤ s.user_num ∧ s.user_num ≤ 4 ∧
      s.user_num = 4 - s.active.length := by
  obtain ⟨h1, h2, -, -⟩ := hinv
  unfold MAX_USERS at h1 h2
  unfold IsInt32 INT_MIN INT_MAX
  omega

/-! ## The counter inside a call -/

theorem math_open_path_last (c : Int) :
    (math_open_path c).getLast? = some (math_open c).2 := by
  unfold math_open_path math_open atomic_dec_return
  by_cases h : wrap32 (c - 1) < 0 <;> simp [h]

theorem math_release_path_last (c : Int) :
    (math_release_path c).getLast? = some (math_release c).2 := by
  simp [math_release_path, math_release]

theorem math_open_path_granted {c : Int} (hc : IsInt32 c) (hpos : 0 < c) :
    math_open_path c = [c - 1] := by
  have hw : wrap32 (c - 1) = c - 1 := by
    unfold IsInt32 INT_MIN INT_MAX at hc
    exact wrap32_eq_self ⟨by unfold INT_MIN; omega, by unfold INT_MAX; omega⟩
  simp only [math_open_path, atomic_dec_return, hw]
  rw [if_neg (by omega)]

theorem math_open_path_denied {c : Int} (hc : IsInt32 c) (hmin : c ≠ INT_MIN)
    (hle : c ≤ 0) : math_open_path c = [c - 1, c] := by
  unfold IsInt32 INT_MIN INT_MAX at hc
  unfold INT_MIN at hmin
  have hw : wrap32 (c - 1) = c - 1 :=
    wrap32_eq_self ⟨by unfold INT_MIN; omega, by unfold INT_MAX; omega⟩
  have hw' : wrap32 (c - 1 + 1) = c :=
    (congrArg wrap32 (by ring)).trans
      (wrap32_eq_self ⟨by unfold INT_MIN; omega, by unfold INT_MAX; omega⟩)
  simp only [math_open_path, atomic_dec_return, atomic_inc, hw]
  rw [if_pos (by omega), hw']

theorem math_release_path_eval {c : Int} (hc : IsInt32 c) (hmax : c ≠ INT_MAX) :
    math_release_path c = [c + 1] := by
  unfold IsInt32 INT_MIN INT_MAX at hc
  unfold INT_MAX at hmax
  have hw : wrap32 (c + 1) = c + 1 :=
    wrap32_eq_self ⟨by unfold INT_MIN; omega, by unfold INT_MAX; omega⟩
  simp only [math_release_path, atomic_inc, hw]

theorem path_bounds (tr : List Call) : ∀ (s : Sys), CapacityInv s → Matched s tr →
    ∀ v ∈ s.path tr, -1 ≤ v ∧ v ≤ 4 := by
  induction tr with
  | nil => intro s _ _ v hv; simp [Sys.path] at hv
  | cons c rest ih =>
    intro s hinv hm v hv
    obtain ⟨hc, h0, h4, hnum⟩ := capacityInv_counter hinv
    cases c with
    | do_open =>
      simp only [Sys.path, List.mem_append] at hv
      rcases hv with hv | hv
      · rcases lt_or_le 0 s.user_num with hpos | hle
        · rw [math_open_path_granted hc hpos, List.mem_singleton] at hv
          omega
        · rw [math_open_path_denied hc (by unfold INT_MIN; omega) hle] at hv
          simp only [List.mem_cons, List.mem_singleton, List.not_mem_nil, or_false] at hv
          omega
      · exact ih _ (step_inv s _ hinv (fun sid h => by cases h)) hm v hv
    | do_release sid =>
      simp only [Sys.path, List.mem_append] at hv
      have hpos : 0 < s.active.length := List.length_pos_of_mem hm.1
      rcases hv with hv | hv
      · rw [math_release_path_eval hc (by unfold INT_MAX; omega), List.mem_singleton] at hv
        omega
      · exact ih _ (step_inv s _ hinv (fun sid' h => by cases h; exact hm.1)) hm.2 v hv

/-- C12, counterexample. With four sessions granted the counter is 0; the
fifth `math_open` then takes it through -1, between its `atomic_dec_return`
and its compensating `atomic_inc`, and -1 is outside `[0, 4]`. -/
theorem counter_transient_counterexample :
    Matched (boot 0) [.do_open, .do_open, .do_open, .do_open, .do_open] ∧
    (-1 : Int) ∈ (boot 0).path [.do_open, .do_open, .do_open, .do_open, .do_open] ∧
    ¬ (0 ≤ (-1 : Int) ∧ (-1 : Int) ≤ 4) := by
  decide

/-- C13, counterexample. A `math_release` made when the counter is already 4
returns 0 and leaves the counter at 5, above `MAX_USERS`. -/
theorem unmatched_release_counterexample :
    (0 ≤ (4 : Int) ∧ (4 : Int) ≤ 4) ∧ math_release 4 = (0, 5) ∧
    ¬ ((math_release 4).2 ≤ MAX_USERS) := by
  decide

/-- C13, as amended. `math_release` has no guard: for every counter value in
`[0, 4]` it returns 0 and raises the counter by one, matched or not. From a
value in `[0, 3]` the counter stays in `[0, 4]`; a `math_release` made when
the counter is already 4 leaves it at 5. -/
theorem math_release_unguarded (c : Int) (h0 : 0 ≤ c) (h4 : c ≤ 4) :
    math_release c = (0, c + 1) ∧
    (c ≤ 3 → 0 ≤ (math_release c).2 ∧ (math_release c).2 ≤ MAX_USERS) ∧
    (c = 4 → (math_release c).2 = 5) := by
  have hr : math_release c = (0, c + 1) :=
    math_release_eval (by unfold IsInt32 INT_MIN INT_MAX; omega) (by unfold INT_MAX; omega)
  rw [hr]
  unfold MAX_USERS
  exact ⟨rfl, fun h => ⟨by show 0 ≤ c + 1; omega, by show c + 1 ≤ 4; omega⟩,
    fun h => by show c + 1 = 5; omega⟩

theorem math_release_unguarded_witness :
    (0 : Int) ≤ 4 ∧ (4 : Int) ≤ 4 ∧
    (math_release 4 = (0, 4 + 1) ∧
    ((4 : Int) ≤ 3 → 0 ≤ (math_release 4).2 ∧ (math_release 4).2 ≤ MAX_USERS) ∧
    ((4 : Int) = 4 → (math_release 4).2 = 5)) :=
  ⟨by decide, by decide, math_release_unguarded 4 (by decide) (by decide)⟩

/-! ## What `math_ioctl` does to the buffer -/

theorem get_user_fault (buf : UserBuf) (i : Nat) (h : ¬ buf.readable i = true) :
    get_user buf i = (-EFAULT, 0) := by
  simp [get_user, h]

theorem math_ioctl_sqr_efault (k : IoctlCodes) (buf : UserBuf)
    (hr0 : ¬ buf.readable 0 = true) :
    math_ioctl k k.MATH_IOCTL_SQR buf = (-EFAULT, buf) := by
  unfold math_ioctl
  rw [if_pos rfl, get_user_fault buf 0 hr0]
  rfl

theorem math_ioctl_neg_efault (k : IoctlCodes) (hk : k.Distinct) (buf : UserBuf)
    (hr0 : ¬ buf.readable 0 = true) :
    math_ioctl k k.MATH_IOCTL_NEG buf = (-EFAULT, buf) := by
  obtain ⟨h1, -⟩ := hk.labels
  unfold math_ioctl
  rw [if_neg h1, if_pos rfl, get_user_fault buf 0 hr0]
  rfl

theorem math_ioctl_add_efault (k : IoctlCodes) (hk : k.Distinct) (buf : UserBuf)
    (hr : ¬ (buf.readable 0 = true ∧ buf.readable 1 = true)) :
    math_ioctl k k.MATH_IOCTL_ADD buf = (-EFAULT, buf) := by
  obtain ⟨-, ⟨h1, h2⟩, -⟩ := hk.labels
  unfold math_ioctl
  rw [if_neg h1, if_neg h2, if_pos rfl]
  by_cases hr0 : buf.readable 0 = true
  · rw [get_user_ok buf 0 hr0, get_user_fault buf 1 (fun h => hr ⟨hr0, h⟩)]
    rfl
  · rw [get_user_fault buf 0 hr0]
    rfl

theorem math_ioctl_sub_efault (k : IoctlCodes) (hk : k.Distinct) (buf : UserBuf)
    (hr : ¬ (buf.readable 0 = true ∧ buf.readable 1 = true)) :
    math_ioctl k k.MATH_IOCTL_SUB buf = (-EFAULT, buf) := by
  obtain ⟨-, -, ⟨h1, h2, h3⟩, -⟩ := hk.labels
  unfold math_ioctl
  rw [if_neg h1, if_neg h2, if_neg h3, if_pos rfl]
  by_cases hr0 : buf.readable 0 = true
  · rw [get_user_ok buf 0 hr0, get_user_fault buf 1 (fun h => hr ⟨hr0, h⟩)]
    rfl
  · rw [get_user_fault buf 0 hr0]
    rfl

theorem math_ioctl_mul_efault (k : IoctlCodes) (hk : k.Distinct) (buf : UserBuf)
    (hr : ¬ (buf.readable 0 = true ∧ buf.readable 1 = true)) :
    math_ioctl k k.MATH_IOCTL_MUL buf = (-EFAULT, buf) := by
  obtain ⟨-, -, -, ⟨h1, h2, h3, h4⟩, -⟩ := hk.labels
  unfold math_ioctl
  rw [if_neg h1, if_neg h2, if_neg h3, if_neg h4, if_pos rfl]
  by_cases hr0 : buf.readable 0 = true
  · rw [get_user_ok buf 0 hr0, get_user_fault buf 1 (fun h => hr ⟨hr0, h⟩)]
    rfl
  · rw [get_user_fault buf 0 hr0]
    rfl

theorem math_ioctl_div_efault (k : IoctlCodes) (hk : k.Distinct) (buf : UserBuf)
    (hr : ¬ (buf.readable 0 = true ∧ buf.readable 1 = true)) :
    math_ioctl k k.MATH_IOCTL_DIV buf = (-EFAULT, buf) := by
  obtain ⟨-, -, -, -, ⟨h1, h2, h3, h4, h5⟩⟩ := hk.labels
  unfold math_ioctl
  rw [if_neg h1, if_neg h2, if_neg h3, if_neg h4, if_neg h5, if_pos rfl]
  by_cases hr0 : buf.readable 0 = true
  · rw [get_user_ok buf 0 hr0, get_user_fault buf 1 (fun h => hr ⟨hr0, h⟩)]
    rfl
  · rw [get_user_fault buf 0 hr0]
    rfl

/-- The tail every branch ends with, a fault test and then a store: either
the status is not 0 and the buffer is untouched, or the test passed, the slot
is writable, the status is 0 and the buffer holds the stored value. -/
theorem test_and_store (buf : UserBuf) (P : Prop) [Decidable P] (i : Nat) (v : Int) :
    ((if P then (-EINVAL, buf) else put_user buf i v).1 ≠ 0 ∧
      (if P then (-EINVAL, buf) else put_user buf i v).2 = buf ∧
      ((if P then (-EINVAL, buf) else put_user buf i v).1 = -EINVAL ↔ P)) ∨
    (¬ P ∧ buf.writable i = true ∧
      (if P then (-EINVAL, buf) else put_user buf i v) =
        (0, { buf with val := fun j => if j = i then v else buf.val j })) := by
  by_cases hP : P
  · left
    rw [if_pos hP]
    exact ⟨by simp [EINVAL], rfl, fun _ => hP, fun _ => rfl⟩
  · rw [if_neg hP]
    by_cases hw : buf.writable i = true
    · right
      exact ⟨hP, hw, put_user_ok buf i v hw⟩
    · left
      have : put_user buf i v = (-EFAULT, buf) := by simp [put_user, hw]
      rw [this]
      refine ⟨by simp [EFAULT], rfl, fun h => ?_, fun h => absurd h hP⟩
      simp [EFAULT, EINVAL] at h

theorem math_ioctl_sqr_outcome (k : IoctlCodes) (buf : UserBuf) :
    ((math_ioctl k k.MATH_IOCTL_SQR buf).1 ≠ 0 ∧ (math_ioctl k k.MATH_IOCTL_SQR buf).2 = buf) ∨
    (buf.readable 0 = true ∧ buf.writable 1 = true ∧
      ¬ (mul_ll (cast_ll (buf.val 0)) (cast_ll (buf.val 0)) > INT_MAX ∨
          mul_ll (cast_ll (buf.val 0)) (cast_ll (buf.val 0)) < INT_MIN) ∧
      math_ioctl k k.MATH_IOCTL_SQR buf =
        (0, { buf with val := (fun j =>
          if j = 1 then cast_int (mul_ll (cast_ll (buf.val 0)) (cast_ll (buf.val 0)))
          else buf.val j) })) := by
  by_cases hr0 : buf.readable 0 = true
  · rw [math_ioctl_sqr_eval k buf hr0]
    rcases test_and_store buf
      (mul_ll (cast_ll (buf.val 0)) (cast_ll (buf.val 0)) > INT_MAX ∨
        mul_ll (cast_ll (buf.val 0)) (cast_ll (buf.val 0)) < INT_MIN)
      1 (cast_int (mul_ll (cast_ll (buf.val 0)) (cast_ll (buf.val 0)))) with h | h
    · exact Or.inl ⟨h.1, h.2.1⟩
    · exact Or.inr ⟨hr0, h.2.1, h.1, h.2.2⟩
  · rw [math_ioctl_sqr_efault k buf hr0]
    exact Or.inl ⟨by simp [EFAULT], rfl⟩

theorem math_ioctl_neg_outcome (k : IoctlCodes) (hk : k.Distinct) (buf : UserBuf) :
    ((math_ioctl k k.MATH_IOCTL_NEG buf).1 ≠ 0 ∧ (math_ioctl k k.MATH_IOCTL_NEG buf).2 = buf) ∨
    (buf.readable 0 = true ∧ buf.writable 1 = true ∧ ¬ buf.val 0 = INT_MIN ∧
      math_ioctl k k.MATH_IOCTL_NEG buf =
        (0, { buf with val := fun j => if j = 1 then neg_int (buf.val 0) else buf.val j })) := by
  by_cases hr0 : buf.readable 0 = true
  · rw [math_ioctl_neg_eval k hk buf hr0]
    rcases test_and_store buf
      (buf.val 0 = INT_MIN)
      1 (neg_int (buf.val 0)) with h | h
    · exact Or.inl ⟨h.1, h.2.1⟩
    · exact Or.inr ⟨hr0, h.2.1, h.1, h.2.2⟩
  · rw [math_ioctl_neg_efault k hk buf hr0]
    exact Or.inl ⟨by simp [EFAULT], rfl⟩

theorem math_ioctl_add_outcome (k : IoctlCodes) (hk : k.Distinct) (buf : UserBuf) :
    ((math_ioctl k k.MATH_IOCTL_ADD buf).1 ≠ 0 ∧ (math_ioctl k k.MATH_IOCTL_ADD buf).2 = buf) ∨
    (buf.readable 0 = true ∧ buf.readable 1 = true ∧ buf.writable 2 = true ∧
      ¬ (add_ll (cast_ll (buf.val 0)) (cast_ll (buf.val 1)) > INT_MAX ∨
          add_ll (cast_ll (buf.val 0)) (cast_ll (buf.val 1)) < INT_MIN) ∧
      math_ioctl k k.MATH_IOCTL_ADD buf =
        (0, { buf with val := (fun j =>
          if j = 2 then cast_int (add_ll (cast_ll (buf.val 0)) (cast_ll (buf.val 1)))
          else buf.val j) })) := by
  by_cases hr : buf.readable 0 = true ∧ buf.readable 1 = true
  · rw [math_ioctl_add_eval k hk buf hr.1 hr.2]
    rcases test_and_store buf
      (add_ll (cast_ll (buf.val 0)) (cast_ll (buf.val 1)) > INT_MAX ∨
        add_ll (cast_ll (buf.val 0)) (cast_ll (buf.val 1)) < INT_MIN)
      2 (cast_int (add_ll (cast_ll (buf.val 0)) (cast_ll (buf.val 1)))) with h | h
    · exact Or.inl ⟨h.1, h.2.1⟩
    · exact Or.inr ⟨hr.1, hr.2, h.2.1, h.1, h.2.2⟩
  · rw [math_ioctl_add_efault k hk buf hr]
    exact Or.inl ⟨by simp [EFAULT], rfl⟩

theorem math_ioctl_sub_outcome (k : IoctlCodes) (hk : k.Distinct) (buf : UserBuf) :
    ((math_ioctl k k.MATH_IOCTL_SUB buf).1 ≠ 0 ∧ (math_ioctl k k.MATH_IOCTL_SUB buf).2 = buf) ∨
    (buf.readable 0 = true ∧ buf.readable 1 = true ∧ buf.writable 2 = true ∧
      ¬ (sub_ll (cast_ll (buf.val 0)) (cast_ll (buf.val 1)) > INT_MAX ∨
          sub_ll (cast_ll (buf.val 0)) (cast_ll (buf.val 1)) < INT_MIN) ∧
      math_ioctl k k.MATH_IOCTL_SUB buf =
        (0, { buf with val := (fun j =>
          if j = 2 then cast_int (sub_ll (cast_ll (buf.val 0)) (cast_ll (buf.val 1)))
          else buf.val j) })) := by
  by_cases hr : buf.readable 0 = true ∧ buf.readable 1 = true
  · rw [math_ioctl_sub_eval k hk buf hr.1 hr.2]
    rcases test_and_store buf
      (sub_ll (cast_ll (buf.val 0)) (cast_ll (buf.val 1)) > INT_MAX ∨
        sub_ll (cast_ll (buf.val 0)) (cast_ll (buf.val 1)) < INT_MIN)
      2 (cast_int (sub_ll (cast_ll (buf.val 0)) (cast_ll (buf.val 1)))) with h | h
    · exact Or.inl ⟨h.1, h.2.1⟩
    · exact Or.inr ⟨hr.1, hr.2, h.2.1, h.1, h.2.2⟩
  · rw [math_ioctl_sub_efault k hk buf hr]
    exact Or.inl ⟨by simp [EFAULT], rfl⟩

theorem math_ioctl_mul_outcome (k : IoctlCodes) (hk : k.Distinct) (buf : UserBuf) :
    ((math_ioctl k k.MATH_IOCTL_MUL buf).1 ≠ 0 ∧ (math_ioctl k k.MATH_IOCTL_MUL buf).2 = buf) ∨
    (buf.readable 0 = true ∧ buf.readable 1 = true ∧ buf.writable 2 = true ∧
      ¬ (mul_ll (cast_ll (buf.val 0)) (cast_ll (buf.val 1)) > INT_MAX ∨
          mul_ll (cast_ll (buf.val 0)) (cast_ll (buf.val 1)) < INT_MIN) ∧
      math_ioctl k k.MATH_IOCTL_MUL buf =
        (0, { buf with val := (fun j =>
          if j = 2 then cast_int (mul_ll (cast_ll (buf.val 0)) (cast_ll (buf.val 1)))
          else buf.val j) })) := by
  by_cases hr : buf.readable 0 = true ∧ buf.readable 1 = true
  · rw [math_ioctl_mul_eval k hk buf hr.1 hr.2]
    rcases test_and_store buf
      (mul_ll (cast_ll (buf.val 0)) (cast_ll (buf.val 1)) > INT_MAX ∨
        mul_ll (cast_ll (buf.val 0)) (cast_ll (buf.val 1)) < INT_MIN)
      2 (cast_int (mul_ll (cast_ll (buf.val 0)) (cast_ll (buf.val 1)))) with h | h
    · exact Or.inl ⟨h.1, h.2.1⟩
    · exact Or.inr ⟨hr.1, hr.2, h.2.1, h.1, h.2.2⟩
  · rw [math_ioctl_mul_efault k hk buf hr]
    exact Or.inl ⟨by simp [EFAULT], rfl⟩

theorem math_ioctl_div_outcome (k : IoctlCodes) (hk : k.Distinct) (buf : UserBuf) :
    ((math_ioctl k k.MATH_IOCTL_DIV buf).1 ≠ 0 ∧ (math_ioctl k k.MATH_IOCTL_DIV buf).2 = buf) ∨
    (buf.readable 0 = true ∧ buf.readable 1 = true ∧ buf.writable 2 = true ∧
      ¬ (buf.val 1 = 0 ∨ (buf.val 0 = INT_MIN ∧ buf.val 1 = -1)) ∧
      math_ioctl k k.MATH_IOCTL_DIV buf =
        (0, { buf with val := fun j =>
          if j = 2 then div_int (buf.val 0) (buf.val 1) else buf.val j })) := by
  by_cases hr : buf.readable 0 = true ∧ buf.readable 1 = true
  · rw [math_ioctl_div_eval k hk buf hr.1 hr.2]
    rcases test_and_store buf
      (buf.val 1 = 0 ∨ (buf.val 0 = INT_MIN ∧ buf.val 1 = -1))
      2 (div_int (buf.val 0) (buf.val 1)) with h | h
    · exact Or.inl ⟨h.1, h.2.1⟩
    · exact Or.inr ⟨hr.1, hr.2, h.2.1, h.1, h.2.2⟩
  · rw [math_ioctl_div_efault k hk buf hr]
    exact Or.inl ⟨by simp [EFAULT], rfl⟩

/-- Whatever the command and the buffer, a status other than 0 comes with the
buffer untouched. -/
theorem math_ioctl_fail_frame (k : IoctlCodes) (hk : k.Distinct) (cmd : Nat) (buf : UserBuf)
    (h : (math_ioctl k cmd buf).1 ≠ 0) : (math_ioctl k cmd buf).2 = buf := by
  by_cases hmem : cmd ∈ k.all
  · simp only [IoctlCodes.all, List.mem_cons, List.mem_singleton, List.not_mem_nil,
      or_false] at hmem
    rcases hmem with rfl | rfl | rfl | rfl | rfl | rfl
    · rcases math_ioctl_sqr_outcome k buf with h' | h'
      · exact h'.2
      · rw [h'.2.2.2] at h; exact absurd rfl h
    · rcases math_ioctl_neg_outcome k hk buf with h' | h'
      · exact h'.2
      · rw [h'.2.2.2] at h; exact absurd rfl h
    · rcases math_ioctl_add_outcome k hk buf with h' | h'
      · exact h'.2
      · rw [h'.2.2.2.2] at h; exact absurd rfl h
    · rcases math_ioctl_sub_outcome k hk buf with h' | h'
      · exact h'.2
      · rw [h'.2.2.2.2] at h; exact absurd rfl h
    · rcases math_ioctl_mul_outcome k hk buf with h' | h'
      · exact h'.2
      · rw [h'.2.2.2.2] at h; exact absurd rfl h
    · rcases math_ioctl_div_outcome k hk buf with h' | h'
      · exact h'.2
      · rw [h'.2.2.2.2] at h; exact absurd rfl h
  · rw [math_ioctl_default_eval k cmd hmem buf]

theorem narrow_exact {r : Int} (h : ¬ (r > INT_MAX ∨ r < INT_MIN)) :
    IsInt32 r ∧ cast_int r = r := by
  have hr : IsInt32 r := by
    unfold IsInt32
    rw [not_or, not_lt, not_lt] at h
    exact ⟨h.2, h.1⟩
  exact ⟨hr, wrap32_eq_self hr⟩

theorem neg_int_exact {a : Int} (ha : IsInt32 a) (hm : ¬ a = INT_MIN) : neg_int a = -a := by
  unfold IsInt32 INT_MIN INT_MAX at ha
  unfold INT_MIN at hm
  exact wrap32_eq_self ⟨by unfold INT_MIN; omega, by unfold INT_MAX; omega⟩

theorem div_int_exact {a b : Int} (ha : IsInt32 a)
    (hf : ¬ (b = 0 ∨ (a = INT_MIN ∧ b = -1))) : div_int a b = Int.tdiv a b :=
  wrap32_eq_self (tdiv_bounds ha (fun h => hf (Or.inl h)) (fun h => hf (Or.inr h)))

/-- C14 (slot convention on success). Whenever `math_ioctl` returns 0: for
`MATH_IOCTL_SQR` and `MATH_IOCTL_NEG` slot 1 holds the result (`a * a`, `-a`)
and every other slot, slot 0 with the input among them, holds what it held;
for `MATH_IOCTL_ADD`, `MATH_IOCTL_SUB`, `MATH_IOCTL_MUL` and `MATH_IOCTL_DIV`
slot 2 holds the result (`a + b`, `a - b`, `a * b`, the truncated quotient)
and every other slot, slots 0 and 1 with the inputs among them, holds what it
held. -/
theorem slot_convention (k : IoctlCodes) (hk : k.Distinct) (buf : UserBuf)
    (ha : IsInt32 (buf.val 0)) (hb : IsInt32 (buf.val 1)) :
    ((math_ioctl k k.MATH_IOCTL_SQR buf).1 = 0 →
      (math_ioctl k k.MATH_IOCTL_SQR buf).2.val 1 = buf.val 0 * buf.val 0 ∧
      (math_ioctl k k.MATH_IOCTL_SQR buf).2.val 0 = buf.val 0 ∧
      ∀ j, j ≠ 1 → (math_ioctl k k.MATH_IOCTL_SQR buf).2.val j = buf.val j) ∧
    ((math_ioctl k k.MATH_IOCTL_NEG buf).1 = 0 →
      (math_ioctl k k.MATH_IOCTL_NEG buf).2.val 1 = -buf.val 0 ∧
      (math_ioctl k k.MATH_IOCTL_NEG buf).2.val 0 = buf.val 0 ∧
      ∀ j, j ≠ 1 → (math_ioctl k k.MATH_IOCTL_NEG buf).2.val j = buf.val j) ∧
    ((math_ioctl k k.MATH_IOCTL_ADD buf).1 = 0 →
      (math_ioctl k k.MATH_IOCTL_ADD buf).2.val 2 = buf.val 0 + buf.val 1 ∧
      (math_ioctl k k.MATH_IOCTL_ADD buf).2.val 0 = buf.val 0 ∧
      (math_ioctl k k.MATH_IOCTL_ADD buf).2.val 1 = buf.val 1 ∧
      ∀ j, j ≠ 2 → (math_ioctl k k.MATH_IOCTL_ADD buf).2.val j = buf.val j) ∧
    ((math_ioctl k k.MATH_IOCTL_SUB buf).1 = 0 →
      (math_ioctl k k.MATH_IOCTL_SUB buf).2.val 2 = buf.val 0 - buf.val 1 ∧
      (math_ioctl k k.MATH_IOCTL_SUB buf).2.val 0 = buf.val 0 ∧
      (math_ioctl k k.MATH_IOCTL_SUB buf).2.val 1 = buf.val 1 ∧
      ∀ j, j ≠ 2 → (math_ioctl k k.MATH_IOCTL_SUB buf).2.val j = buf.val j) ∧
    ((math_ioctl k k.MATH_IOCTL_MUL buf).1 = 0 →
      (math_ioctl k k.MATH_IOCTL_MUL buf).2.val 2 = buf.val 0 * buf.val 1 ∧
      (math_ioctl k k.MATH_IOCTL_MUL buf).2.val 0 = buf.val 0 ∧
      (math_ioctl k k.MATH_IOCTL_MUL buf).2.val 1 = buf.val 1 ∧
      ∀ j, j ≠ 2 → (math_ioctl k k.MATH_IOCTL_MUL buf).2.val j = buf.val j) ∧
    ((math_ioctl k k.MATH_IOCTL_DIV buf).1 = 0 →
      (math_ioctl k k.MATH_IOCTL_DIV buf).2.val 2 = Int.tdiv (buf.val 0) (buf.val 1) ∧
      (math_ioctl k k.MATH_IOCTL_DIV buf).2.val 0 = buf.val 0 ∧
      (math_ioctl k k.MATH_IOCTL_DIV buf).2.val 1 = buf.val 1 ∧
      ∀ j, j ≠ 2 → (math_ioctl k k.MATH_IOCTL_DIV buf).2.val j = buf.val j) := by
  refine ⟨fun h => ?_, fun h => ?_, fun h => ?_, fun h => ?_, fun h => ?_, fun h => ?_⟩
  · rcases math_ioctl_sqr_outcome k buf with h' | ⟨-, -, hf, he⟩
    · exact absurd h h'.1
    · rw [mul_ll_exact ha ha] at hf he
      rw [he, (narrow_exact hf).2]
      exact ⟨by simp, by simp, fun j hj => by simp [hj]⟩
  · rcases math_ioctl_neg_outcome k hk buf with h' | ⟨-, -, hf, he⟩
    · exact absurd h h'.1
    · rw [he, neg_int_exact ha hf]
      exact ⟨by simp, by simp, fun j hj => by simp [hj]⟩
  · rcases math_ioctl_add_outcome k hk buf with h' | ⟨-, -, -, hf, he⟩
    · exact absurd h h'.1
    · rw [add_ll_exact ha hb] at hf he
      rw [he, (narrow_exact hf).2]
      exact ⟨by simp, by simp, by simp, fun j hj => by simp [hj]⟩
  · rcases math_ioctl_sub_outcome k hk buf with h' | ⟨-, -, -, hf, he⟩
    · exact absurd h h'.1
    · rw [sub_ll_exact ha hb] at hf he
      rw [he, (narrow_exact hf).2]
      exact ⟨by simp, by simp, by simp, fun j hj => by simp [hj]⟩
  · rcases math_ioctl_mul_outcome k hk buf with h' | ⟨-, -, -, hf, he⟩
    · exact absurd h h'.1
    · rw [mul_ll_exact ha hb] at hf he
      rw [he, (narrow_exact hf).2]
      exact ⟨by simp, by simp, by simp, fun j hj => by simp [hj]⟩
  · rcases math_ioctl_div_outcome k hk buf with h' | ⟨-, -, -, hf, he⟩
    · exact absurd h h'.1
    · rw [he, div_int_exact ha hf]
      exact ⟨by simp, by simp, by simp, fun j hj => by simp [hj]⟩

theorem slot_convention_witness :
    sampleCodes.Distinct ∧ IsInt32 ((mkBuf 7 3 99).val 0) ∧ IsInt32 ((mkBuf 7 3 99).val 1) ∧
    (math_ioctl sampleCodes sampleCodes.MATH_IOCTL_DIV (mkBuf 7 3 99)).1 = 0 ∧
    (math_ioctl sampleCodes sampleCodes.MATH_IOCTL_DIV (mkBuf 7 3 99)).2.val 2 = 2 ∧
    (math_ioctl sampleCodes sampleCodes.MATH_IOCTL_SQR (mkBuf 7 3 99)).2.val 1 = 49 ∧
    (math_ioctl sampleCodes sampleCodes.MATH_IOCTL_SQR (mkBuf 7 3 99)).2.val 2 = 99 ∧
    ((math_ioctl sampleCodes sampleCodes.MATH_IOCTL_DIV (mkBuf 7 3 99)).2.val 2 =
        Int.tdiv ((mkBuf 7 3 99).val 0) ((mkBuf 7 3 99).val 1) ∧
      (math_ioctl sampleCodes sampleCodes.MATH_IOCTL_DIV (mkBuf 7 3 99)).2.val 0 =
        (mkBuf 7 3 99).val 0 ∧
      (math_ioctl sampleCodes sampleCodes.MATH_IOCTL_DIV (mkBuf 7 3 99)).2.val 1 =
        (mkBuf 7 3 99).val 1 ∧
      ∀ j, j ≠ 2 →
        (math_ioctl sampleCodes sampleCodes.MATH_IOCTL_DIV (mkBuf 7 3 99)).2.val j =
          (mkBuf 7 3 99).val j) :=
  ⟨by decide, by decide, by decide, by decide, by decide, by decide, by decide,
    (slot_convention sampleCodes (by decide) (mkBuf 7 3 99) (by decide)
      (by decide)).2.2.2.2.2 (by decide)⟩

/-- C19 (fault atomicity of the buffer). For every command, the six recognised
ones among them, and every operand buffer for which `math_ioctl` returns
`-EINVAL` (overflow, negation of `INT_MIN`, division by zero, `INT_MIN / -1`),
the buffer on return is the buffer given: no slot is modified, and the output
slot keeps the value it held. -/
theorem fault_atomicity (k : IoctlCodes) (hk : k.Distinct) (cmd : Nat) (buf : UserBuf)
    (h : (math_ioctl k cmd buf).1 = -EINVAL) :
    (math_ioctl k cmd buf).2 = buf ∧
    ∀ j, (math_ioctl k cmd buf).2.val j = buf.val j := by
  have hne : (math_ioctl k cmd buf).1 ≠ 0 := by
    rw [h]; decide
  have hb := math_ioctl_fail_frame k hk cmd buf hne
  exact ⟨hb, fun j => by rw [hb]⟩

theorem fault_atomicity_witness :
    sampleCodes.Distinct ∧
    (math_ioctl sampleCodes sampleCodes.MATH_IOCTL_DIV (mkBuf INT_MIN (-1) 99)).1 = -EINVAL ∧
    (math_ioctl sampleCodes sampleCodes.MATH_IOCTL_MUL (mkBuf 65536 65536 99)).1 = -EINVAL ∧
    ((math_ioctl sampleCodes sampleCodes.MATH_IOCTL_DIV (mkBuf INT_MIN (-1) 99)).2 =
        mkBuf INT_MIN (-1) 99 ∧
      ∀ j, (math_ioctl sampleCodes sampleCodes.MATH_IOCTL_DIV (mkBuf INT_MIN (-1) 99)).2.val j =
        (mkBuf INT_MIN (-1) 99).val j) :=
  ⟨by decide, by decide, by decide,
    fault_atomicity sampleCodes (by decide) sampleCodes.MATH_IOCTL_DIV (mkBuf INT_MIN (-1) 99)
      (by decide)⟩

/-- C20 (multiply / divide round trip). For signed 32-bit `a` and `b` with
`b ≠ 0`: if `MATH_IOCTL_MUL` on `(a, b)` returns 0 with result `c` in slot 2,
then `MATH_IOCTL_DIV` on an accessible buffer holding `(c, b)` returns 0 as
well, so it does not hit the `INT_MIN / -1` fault, and its slot 2 holds
exactly `a`. -/
theorem mul_div_round_trip (k : IoctlCodes) (hk : k.Distinct) (bufM bufD : UserBuf)
    (ha : IsInt32 (bufM.val 0)) (hb : IsInt32 (bufM.val 1)) (hb0 : bufM.val 1 ≠ 0)
    (hmul : (math_ioctl k k.MATH_IOCTL_MUL bufM).1 = 0)
    (hr0 : bufD.readable 0 = true) (hr1 : bufD.readable 1 = true)
    (hw2 : bufD.writable 2 = true)
    (hc : bufD.val 0 = (math_ioctl k k.MATH_IOCTL_MUL bufM).2.val 2)
    (hd : bufD.val 1 = bufM.val 1) :
    (math_ioctl k k.MATH_IOCTL_DIV bufD).1 = 0 ∧
    (math_ioctl k k.MATH_IOCTL_DIV bufD).2.val 2 = bufM.val 0 := by
  rcases math_ioctl_mul_outcome k hk bufM with h' | ⟨-, -, -, hf, he⟩
  · exact absurd hmul h'.1
  · rw [mul_ll_exact ha hb] at hf he
    obtain ⟨hrange, hnarrow⟩ := narrow_exact hf
    have hc' : bufD.val 0 = bufM.val 0 * bufM.val 1 := by
      rw [hc, he, hnarrow]; simp
    have hsafe : ¬ (bufD.val 1 = 0 ∨ (bufD.val 0 = INT_MIN ∧ bufD.val 1 = -1)) := by
      rw [hd, hc']
      rintro (h0 | ⟨hmin, hneg⟩)
      · exact hb0 h0
      · rw [hneg] at hmin
        unfold IsInt32 INT_MIN INT_MAX at ha
        unfold INT_MIN at hmin
        omega
    have hcr : IsInt32 (bufD.val 0) := by rw [hc']; exact hrange
    rw [math_ioctl_div_eval k hk bufD hr0 hr1, if_neg hsafe, put_user_ok bufD 2 _ hw2,
      div_int_exact hcr hsafe, hc', hd, Int.mul_tdiv_cancel _ hb0]
    exact ⟨rfl, by simp⟩

theorem mul_div_round_trip_witness :
    sampleCodes.Distinct ∧ IsInt32 ((mkBuf (-7) 3 0).val 0) ∧ IsInt32 ((mkBuf (-7) 3 0).val 1) ∧
    (mkBuf (-7) 3 0).val 1 ≠ 0 ∧
    (math_ioctl sampleCodes sampleCodes.MATH_IOCTL_MUL (mkBuf (-7) 3 0)).1 = 0 ∧
    (mkBuf (-21) 3 0).readable 0 = true ∧ (mkBuf (-21) 3 0).readable 1 = true ∧
    (mkBuf (-21) 3 0).writable 2 = true ∧
    (mkBuf (-21) 3 0).val 0 =
      (math_ioctl sampleCodes sampleCodes.MATH_IOCTL_MUL (mkBuf (-7) 3 0)).2.val 2 ∧
    (mkBuf (-21) 3 0).val 1 = (mkBuf (-7) 3 0).val 1 ∧
    ((math_ioctl sampleCodes sampleCodes.MATH_IOCTL_DIV (mkBuf (-21) 3 0)).1 = 0 ∧
      (math_ioctl sampleCodes sampleCodes.MATH_IOCTL_DIV (mkBuf (-21) 3 0)).2.val 2 =
        (mkBuf (-7) 3 0).val 0) :=
  ⟨by decide, by decide, by decide, by decide, by decide, rfl, rfl, rfl, by decide, by decide,
    mul_div_round_trip sampleCodes (by decide) (mkBuf (-7) 3 0) (mkBuf (-21) 3 0)
      (by decide) (by decide) (by decide) (by decide) rfl rfl rfl (by decide) (by decide)⟩

/-! ## No undefined operation is executed -/

theorem mul_ll_checked_exact {a b : Int} (ha : IsInt32 a) (hb : IsInt32 b) :
    mul_ll_checked (cast_ll a) (cast_ll b) = some (a * b) := by
  rw [cast_ll_eq_self ha, cast_ll_eq_self hb]
  unfold mul_ll_checked
  rw [if_pos (mul_bounds ha hb)]

theorem add_ll_checked_exact {a b : Int} (ha : IsInt32 a) (hb : IsInt32 b) :
    add_ll_checked (cast_ll a) (cast_ll b) = some (a + b) := by
  rw [cast_ll_eq_self ha, cast_ll_eq_self hb]
  unfold IsInt32 INT_MIN INT_MAX at ha hb
  unfold add_ll_checked
  rw [if_pos (by omega)]

theorem sub_ll_checked_exact {a b : Int} (ha : IsInt32 a) (hb : IsInt32 b) :
    sub_ll_checked (cast_ll a) (cast_ll b) = some (a - b) := by
  rw [cast_ll_eq_self ha, cast_ll_eq_self hb]
  unfold IsInt32 INT_MIN INT_MAX at ha hb
  unfold sub_ll_checked
  rw [if_pos (by omega)]

/-- The tail of the square, add, subtract and multiply branches agrees in
the two embeddings once the wide result is exact. -/
theorem checked_tail (buf : UserBuf) (i : Nat) (r : Int) :
    (if r > INT_MAX ∨ r < INT_MIN then some (-EINVAL, buf) else
      (cast_int_checked r).bind fun result =>
        match put_user buf i result with
        | (err, buf1) => if err < 0 then some (err, buf1) else some (0, buf1)) =
    some (if r > INT_MAX ∨ r < INT_MIN then (-EINVAL, buf) else
      match put_user buf i (cast_int r) with
      | (err, buf1) => if err < 0 then (err, buf1) else (0, buf1)) := by
  by_cases hf : r > INT_MAX ∨ r < INT_MIN
  · rw [if_pos hf, if_pos hf]
  · rw [if_neg hf, if_neg hf]
    obtain ⟨hr, hn⟩ := narrow_exact hf
    unfold cast_int_checked
    rw [if_pos hr, hn, Option.some_bind]
    generalize put_user buf i r = p
    obtain ⟨err, buf1⟩ := p
    by_cases he : err < 0 <;> simp [he]

theorem neg_div_tail (buf : UserBuf) (i : Nat) (v : Int) :
    ((some v).bind fun result =>
        match put_user buf i result with
        | (err, buf1) => if err < 0 then some (err, buf1) else some (0, buf1)) =
    some (match put_user buf i v with
      | (err, buf1) => if err < 0 then (err, buf1) else (0, buf1)) := by
  rw [Option.some_bind]
  generalize put_user buf i v = p
  obtain ⟨err, buf1⟩ := p
  by_cases he : err < 0 <;> simp [he]

/-- C15 (no arithmetic hazard is reachable). For every command and every
buffer whose operand slots hold signed 32-bit values, `math_ioctl` run with
the checked operations never meets an undefined one and returns what
`math_ioctl` returns: no `long long` operation overflows, every `(int)`
narrowing is of a value an `int` holds, `-first_op` is executed only for
`first_op ≠ INT_MIN`, and `first_op / second_op` only for `second_op ≠ 0` and
not `INT_MIN / -1`. The `long long` intermediates are the exact square, sum,
difference and product. -/
theorem no_arithmetic_hazard (k : IoctlCodes) (cmd : Nat) (buf : UserBuf)
    (ha : IsInt32 (buf.val 0)) (hb : IsInt32 (buf.val 1)) :
    math_ioctl_checked k cmd buf = some (math_ioctl k cmd buf) ∧
    mul_ll (cast_ll (buf.val 0)) (cast_ll (buf.val 0)) = buf.val 0 * buf.val 0 ∧
    add_ll (cast_ll (buf.val 0)) (cast_ll (buf.val 1)) = buf.val 0 + buf.val 1 ∧
    sub_ll (cast_ll (buf.val 0)) (cast_ll (buf.val 1)) = buf.val 0 - buf.val 1 ∧
    mul_ll (cast_ll (buf.val 0)) (cast_ll (buf.val 1)) = buf.val 0 * buf.val 1 := by
  refine ⟨?_, mul_ll_exact ha ha, add_ll_exact ha hb, sub_ll_exact ha hb, mul_ll_exact ha hb⟩
  unfold math_ioctl_checked math_ioctl
  by_cases h1 : cmd = k.MATH_IOCTL_SQR
  · rw [if_pos h1, if_pos h1]
    by_cases hr0 : buf.readable 0 = true
    · rw [get_user_ok buf 0 hr0]
      simp only [lt_self_iff_false, if_false, mul_ll_checked_exact ha ha, mul_ll_exact ha ha,
        Option.some_bind]
      exact checked_tail buf 1 _
    · rw [get_user_fault buf 0 hr0]
      rfl
  rw [if_neg h1, if_neg h1]
  by_cases h2 : cmd = k.MATH_IOCTL_NEG
  · rw [if_pos h2, if_pos h2]
    by_cases hr0 : buf.readable 0 = true
    · rw [get_user_ok buf 0 hr0]
      simp only [lt_self_iff_false, if_false]
      by_cases hm : buf.val 0 = INT_MIN
      · rw [if_pos hm, if_pos hm]
      · rw [if_neg hm, if_neg hm]
        unfold neg_int_checked
        rw [if_neg hm, neg_int_exact ha hm]
        exact neg_div_tail buf 1 _
    · rw [get_user_fault buf 0 hr0]
      rfl
  rw [if_neg h2, if_neg h2]
  by_cases h3 : cmd = k.MATH_IOCTL_ADD
  · rw [if_pos h3, if_pos h3]
    by_cases hr0 : buf.readable 0 = true
    · rw [get_user_ok buf 0 hr0]
      by_cases hr1 : buf.readable 1 = true
      · rw [get_user_ok buf 1 hr1]
        simp only [lt_self_iff_false, if_false, add_ll_checked_exact ha hb,
          add_ll_exact ha hb, Option.some_bind]
        exact checked_tail buf 2 _
      · rw [get_user_fault buf 1 hr1]
        rfl
    · rw [get_user_fault buf 0 hr0]
      rfl
  rw [if_neg h3, if_neg h3]
  by_cases h4 : cmd = k.MATH_IOCTL_SUB
  · rw [if_pos h4, if_pos h4]
    by_cases hr0 : buf.readable 0 = true
    · rw [get_user_ok buf 0 hr0]
      by_cases hr1 : buf.readable 1 = true
      · rw [get_user_ok buf 1 hr1]
        simp only [lt_self_iff_false, if_false, sub_ll_checked_exact ha hb,
          sub_ll_exact ha hb, Option.some_bind]
        exact checked_tail buf 2 _
      · rw [get_user_fault buf 1 hr1]
        rfl
    · rw [get_user_fault buf 0 hr0]
      rfl
  rw [if_neg h4, if_neg h4]
  by_cases h5 : cmd = k.MATH_IOCTL_MUL
  · rw [if_pos h5, if_pos h5]
    by_cases hr0 : buf.readable 0 = true
    · rw [get_user_ok buf 0 hr0]
      by_cases hr1 : buf.readable 1 = true
      · rw [get_user_ok buf 1 hr1]
        simp only [lt_self_iff_false, if_false, mul_ll_checked_exact ha hb,
          mul_ll_exact ha hb, Option.some_bind]
        exact checked_tail buf 2 _
      · rw [get_user_fault buf 1 hr1]
        rfl
    · rw [get_user_fault buf 0 hr0]
      rfl
  rw [if_neg h5, if_neg h5]
  by_cases h6 : cmd = k.MATH_IOCTL_DIV
  · rw [if_pos h6, if_pos h6]
    by_cases hr0 : buf.readable 0 = true
    · rw [get_user_ok buf 0 hr0]
      by_cases hr1 : buf.readable 1 = true
      · rw [get_user_ok buf 1 hr1]
        simp only [lt_self_iff_false, if_false]
        by_cases hf : buf.val 1 = 0 ∨ (buf.val 0 = INT_MIN ∧ buf.val 1 = -1)
        · rw [if_pos hf, if_pos hf]
        · rw [if_neg hf, if_neg hf]
          unfold div_int_checked
          rw [if_neg hf, div_int_exact ha hf]
          exact neg_div_tail buf 2 _
      · rw [get_user_fault buf 1 hr1]
        rfl
    · rw [get_user_fault buf 0 hr0]
      rfl
  rw [if_neg h6, if_neg h6]

theorem no_arithmetic_hazard_witness :
    IsInt32 ((mkBuf INT_MIN (-1) 0).val 0) ∧ IsInt32 ((mkBuf INT_MIN (-1) 0).val 1) ∧
    neg_int_checked INT_MIN = none ∧ div_int_checked INT_MIN (-1) = none ∧
    div_int_checked 1 0 = none ∧ cast_int_checked (INT_MAX + 1) = none ∧
    mul_ll_checked (2 ^ 62) 2 = none ∧
    (math_ioctl_checked sampleCodes sampleCodes.MATH_IOCTL_DIV (mkBuf INT_MIN (-1) 0) =
        some (math_ioctl sampleCodes sampleCodes.MATH_IOCTL_DIV (mkBuf INT_MIN (-1) 0)) ∧
      mul_ll (cast_ll ((mkBuf INT_MIN (-1) 0).val 0)) (cast_ll ((mkBuf INT_MIN (-1) 0).val 0)) =
        (mkBuf INT_MIN (-1) 0).val 0 * (mkBuf INT_MIN (-1) 0).val 0 ∧
      add_ll (cast_ll ((mkBuf INT_MIN (-1) 0).val 0)) (cast_ll ((mkBuf INT_MIN (-1) 0).val 1)) =
        (mkBuf INT_MIN (-1) 0).val 0 + (mkBuf INT_MIN (-1) 0).val 1 ∧
      sub_ll (cast_ll ((mkBuf INT_MIN (-1) 0).val 0)) (cast_ll ((mkBuf INT_MIN (-1) 0).val 1)) =
        (mkBuf INT_MIN (-1) 0).val 0 - (mkBuf INT_MIN (-1) 0).val 1 ∧
      mul_ll (cast_ll ((mkBuf INT_MIN (-1) 0).val 0)) (cast_ll ((mkBuf INT_MIN (-1) 0).val 1)) =
        (mkBuf INT_MIN (-1) 0).val 0 * (mkBuf INT_MIN (-1) 0).val 1) :=
  ⟨by decide, by decide, by decide, by decide, by decide, by decide, by decide,
    no_arithmetic_hazard sampleCodes sampleCodes.MATH_IOCTL_DIV (mkBuf INT_MIN (-1) 0)
      (by decide) (by decide)⟩

/-! ## `math_ioctl` and the state around it -/

theorem global_tail (buf : UserBuf) (i : Nat) (v c : Int) :
    (match put_user buf i v with
      | (err, buf1) => if err < 0 then (err, buf1, c) else (0, buf1, c)) =
    ((match put_user buf i v with
      | (err, buf1) => if err < 0 then (err, buf1) else (0, buf1)).1,
     (match put_user buf i v with
      | (err, buf1) => if err < 0 then (err, buf1) else (0, buf1)).2, c) := by
  generalize put_user buf i v = p
  obtain ⟨err, buf1⟩ := p
  by_cases he : err < 0 <;> simp [he]

/-- The state-passing embedding returns what `math_ioctl` returns, next to the
`user_num` it was given. -/
theorem math_ioctl_global_eq (k : IoctlCodes) (file : Nat) (c : Int) (cmd : Nat)
    (buf : UserBuf) :
    math_ioctl_global k file c cmd buf =
      ((math_ioctl k cmd buf).1, (math_ioctl k cmd buf).2, c) := by
  unfold math_ioctl_global math_ioctl
  by_cases h1 : cmd = k.MATH_IOCTL_SQR
  · rw [if_pos h1, if_pos h1]
    generalize get_user buf 0 = p
    obtain ⟨err, first_op⟩ := p
    by_cases he : err < 0
    · simp only [he, if_true]
    · simp only [he, if_false]
      split
      · rfl
      · exact global_tail buf 1 _ c
  rw [if_neg h1, if_neg h1]
  by_cases h2 : cmd = k.MATH_IOCTL_NEG
  · rw [if_pos h2, if_pos h2]
    generalize get_user buf 0 = p
    obtain ⟨err, first_op⟩ := p
    by_cases he : err < 0
    · simp only [he, if_true]
    · simp only [he, if_false]
      split
      · rfl
      · exact global_tail buf 1 _ c
  rw [if_neg h2, if_neg h2]
  by_cases h3 : cmd = k.MATH_IOCTL_ADD
  · rw [if_pos h3, if_pos h3]
    generalize get_user buf 0 = p
    obtain ⟨err, first_op⟩ := p
    by_cases he : err < 0
    · simp only [he, if_true]
    · simp only [he, if_false]
      generalize get_user buf 1 = q
      obtain ⟨err1, second_op⟩ := q
      by_cases he1 : err1 < 0
      · simp only [he1, if_true]
      · simp only [he1, if_false]
        split
        · rfl
        · exact global_tail buf 2 _ c
  rw [if_neg h3, if_neg h3]
  by_cases h4 : cmd = k.MATH_IOCTL_SUB
  · rw [if_pos h4, if_pos h4]
    generalize get_user buf 0 = p
    obtain ⟨err, first_op⟩ := p
    by_cases he : err < 0
    · simp only [he, if_true]
    · simp only [he, if_false]
      generalize get_user buf 1 = q
      obtain ⟨err1, second_op⟩ := q
      by_cases he1 : err1 < 0
      · simp only [he1, if_true]
      · simp only [he1, if_false]
        split
        · rfl
        · exact global_tail buf 2 _ c
  rw [if_neg h4, if_neg h4]
  by_cases h5 : cmd = k.MATH_IOCTL_MUL
  · rw [if_pos h5, if_pos h5]
    generalize get_user buf 0 = p
    obtain ⟨err, first_op⟩ := p
    by_cases he : err < 0
    · simp only [he, if_true]
    · simp only [he, if_false]
      generalize get_user buf 1 = q
      obtain ⟨err1, second_op⟩ := q
      by_cases he1 : err1 < 0
      · simp only [he1, if_true]
      · simp only [he1, if_false]
        split
        · rfl
        · exact global_tail buf 2 _ c
  rw [if_neg h5, if_neg h5]
  by_cases h6 : cmd = k.MATH_IOCTL_DIV
  · rw [if_pos h6, if_pos h6]
    generalize get_user buf 0 = p
    obtain ⟨err, first_op⟩ := p
    by_cases he : err < 0
    · simp only [he, if_true]
    · simp only [he, if_false]
      generalize get_user buf 1 = q
      obtain ⟨err1, second_op⟩ := q
      by_cases he1 : err1 < 0
      · simp only [he1, if_true]
      · simp only [he1, if_false]
        split
        · rfl
        · exact global_tail buf 2 _ c
  rw [if_neg h6, if_neg h6]

/-- C16 (the dispatcher never touches the capacity counter). For every counter
value, session, command and operand buffer, `user_num` when `math_ioctl`
returns, with success or with any fault, is `user_num` as it was when the call
was made. -/
theorem math_ioctl_keeps_counter (k : IoctlCodes) (file : Nat) (c : Int) (cmd : Nat)
    (buf : UserBuf) : (math_ioctl_global k file c cmd buf).2.2 = c := by
  rw [math_ioctl_global_eq]

theorem tail_congr (b1 b2 : UserBuf) (P : Prop) [Decidable P] (i : Nat) (v : Int)
    (hw : b1.writable i = b2.writable i) :
    (if P then (-EINVAL, b1) else put_user b1 i v).1 =
      (if P then (-EINVAL, b2) else put_user b2 i v).1 ∧
    ((if P then (-EINVAL, b1) else put_user b1 i v).1 = 0 →
      (if P then (-EINVAL, b1) else put_user b1 i v).2.val i =
        (if P then (-EINVAL, b2) else put_user b2 i v).2.val i) := by
  by_cases hP : P
  · rw [if_pos hP, if_pos hP]
    exact ⟨rfl, fun h => by simp [EINVAL] at h⟩
  · rw [if_neg hP, if_neg hP]
    by_cases hw1 : b1.writable i = true
    · rw [put_user_ok b1 i v hw1, put_user_ok b2 i v (hw ▸ hw1)]
      exact ⟨rfl, fun _ => by simp⟩
    · have hw2 : ¬ b2.writable i = true := hw ▸ hw1
      have e1 : put_user b1 i v = (-EFAULT, b1) := by simp [put_user, hw1]
      have e2 : put_user b2 i v = (-EFAULT, b2) := by simp [put_user, hw2]
      rw [e1, e2]
      exact ⟨rfl, fun h => by simp [EFAULT] at h⟩

theorem efault_congr (b1 b2 : UserBuf) (i : Nat) :
    ((-EFAULT, b1) : Int × UserBuf).1 = ((-EFAULT, b2) : Int × UserBuf).1 ∧
    (((-EFAULT, b1) : Int × UserBuf).1 = 0 →
      ((-EFAULT, b1) : Int × UserBuf).2.val i = ((-EFAULT, b2) : Int × UserBuf).2.val i) :=
  ⟨rfl, fun h => by simp [EFAULT] at h⟩

/-- The status of `math_ioctl`, and on success the value in the result slot,
depend on the buffer through its access rights and its operand slots only:
slot 0 for the one-operand commands. -/
theorem math_ioctl_congr_unary (k : IoctlCodes) (hk : k.Distinct) (cmd : Nat)
    (b1 b2 : UserBuf) (hr : b1.readable = b2.readable) (hw : b1.writable = b2.writable)
    (h0 : b1.val 0 = b2.val 0)
    (hcmd : cmd = k.MATH_IOCTL_SQR ∨ cmd = k.MATH_IOCTL_NEG) :
    (math_ioctl k cmd b1).1 = (math_ioctl k cmd b2).1 ∧
    ((math_ioctl k cmd b1).1 = 0 →
      (math_ioctl k cmd b1).2.val 1 = (math_ioctl k cmd b2).2.val 1) := by
  have hw1 : b1.writable 1 = b2.writable 1 := congrFun hw 1
  by_cases hr0 : b1.readable 0 = true
  · have hr0' : b2.readable 0 = true := hr ▸ hr0
    rcases hcmd with rfl | rfl
    · rw [math_ioctl_sqr_eval k b1 hr0, math_ioctl_sqr_eval k b2 hr0', h0]
      exact tail_congr b1 b2 _ 1 _ hw1
    · rw [math_ioctl_neg_eval k hk b1 hr0, math_ioctl_neg_eval k hk b2 hr0', h0]
      exact tail_congr b1 b2 _ 1 _ hw1
  · have hr0' : ¬ b2.readable 0 = true := hr ▸ hr0
    rcases hcmd with rfl | rfl
    · rw [math_ioctl_sqr_efault k b1 hr0, math_ioctl_sqr_efault k b2 hr0']
      exact efault_congr b1 b2 1
    · rw [math_ioctl_neg_efault k hk b1 hr0, math_ioctl_neg_efault k hk b2 hr0']
      exact efault_congr b1 b2 1

/-- The same for the other commands, whose operand slots are 0 and 1 and whose
result slot is 2. -/
theorem math_ioctl_congr_binary (k : IoctlCodes) (hk : k.Distinct) (cmd : Nat)
    (b1 b2 : UserBuf) (hr : b1.readable = b2.readable) (hw : b1.writable = b2.writable)
    (h0 : b1.val 0 = b2.val 0) (h1 : b1.val 1 = b2.val 1)
    (hcmd : ¬ (cmd = k.MATH_IOCTL_SQR ∨ cmd = k.MATH_IOCTL_NEG)) :
    (math_ioctl k cmd b1).1 = (math_ioctl k cmd b2).1 ∧
    ((math_ioctl k cmd b1).1 = 0 →
      (math_ioctl k cmd b1).2.val 2 = (math_ioctl k cmd b2).2.val 2) := by
  have hw2 : b1.writable 2 = b2.writable 2 := congrFun hw 2
  by_cases hmem : cmd ∈ k.all
  · simp only [IoctlCodes.all, List.mem_cons, List.mem_singleton, List.not_mem_nil,
      or_false] at hmem
    by_cases hrd : b1.readable 0 = true ∧ b1.readable 1 = true
    · have hrd' : b2.readable 0 = true ∧ b2.readable 1 = true := hr ▸ hrd
      rcases hmem with rfl | rfl | rfl | rfl | rfl | rfl
      · exact absurd (Or.inl rfl) hcmd
      · exact absurd (Or.inr rfl) hcmd
      · rw [math_ioctl_add_eval k hk b1 hrd.1 hrd.2, math_ioctl_add_eval k hk b2 hrd'.1 hrd'.2,
          h0, h1]
        exact tail_congr b1 b2 _ 2 _ hw2
      · rw [math_ioctl_sub_eval k hk b1 hrd.1 hrd.2, math_ioctl_sub_eval k hk b2 hrd'.1 hrd'.2,
          h0, h1]
        exact tail_congr b1 b2 _ 2 _ hw2
      · rw [math_ioctl_mul_eval k hk b1 hrd.1 hrd.2, math_ioctl_mul_eval k hk b2 hrd'.1 hrd'.2,
          h0, h1]
        exact tail_congr b1 b2 _ 2 _ hw2
      · rw [math_ioctl_div_eval k hk b1 hrd.1 hrd.2, math_ioctl_div_eval k hk b2 hrd'.1 hrd'.2,
          h0, h1]
        exact tail_congr b1 b2 _ 2 _ hw2
    · have hrd' : ¬ (b2.readable 0 = true ∧ b2.readable 1 = true) := hr ▸ hrd
      rcases hmem with rfl | rfl | rfl | rfl | rfl | rfl
      · exact absurd (Or.inl rfl) hcmd
      · exact absurd (Or.inr rfl) hcmd
      · rw [math_ioctl_add_efault k hk b1 hrd, math_ioctl_add_efault k hk b2 hrd']
        exact efault_congr b1 b2 2
      · rw [math_ioctl_sub_efault k hk b1 hrd, math_ioctl_sub_efault k hk b2 hrd']
        exact efault_congr b1 b2 2
      · rw [math_ioctl_mul_efault k hk b1 hrd, math_ioctl_mul_efault k hk b2 hrd']
        exact efault_congr b1 b2 2
      · rw [math_ioctl_div_efault k hk b1 hrd, math_ioctl_div_efault k hk b2 hrd']
        exact efault_congr b1 b2 2
  · rw [math_ioctl_default_eval k cmd hmem b1, math_ioctl_default_eval k cmd hmem b2]
    exact ⟨rfl, fun h => by simp [EINVAL] at h⟩

/-- C17 (independence of commands). Whatever the two sessions and the two
counter values, two `math_ioctl` calls with the same command on the same
operand buffer return the same status and leave the same buffer. More, the
outcome is a function of the command and the operands only: on two buffers
with the same access rights that agree on the operand slots (slot 0 for
`MATH_IOCTL_SQR` and `MATH_IOCTL_NEG`, slots 0 and 1 otherwise), the two calls
return the same status and, when it is 0, the same value in the result
slot. -/
theorem command_independence (k : IoctlCodes) (hk : k.Distinct) (cmd : Nat)
    (file1 file2 : Nat) (c1 c2 : Int) (b1 b2 : UserBuf)
    (hr : b1.readable = b2.readable) (hw : b1.writable = b2.writable)
    (h0 : b1.val 0 = b2.val 0) :
    ((math_ioctl_global k file1 c1 cmd b1).1 = (math_ioctl_global k file2 c2 cmd b1).1 ∧
      (math_ioctl_global k file1 c1 cmd b1).2.1 = (math_ioctl_global k file2 c2 cmd b1).2.1) ∧
    ((cmd = k.MATH_IOCTL_SQR ∨ cmd = k.MATH_IOCTL_NEG) →
      (math_ioctl_global k file1 c1 cmd b1).1 = (math_ioctl_global k file2 c2 cmd b2).1 ∧
      ((math_ioctl_global k file1 c1 cmd b1).1 = 0 →
        (math_ioctl_global k file1 c1 cmd b1).2.1.val 1 =
          (math_ioctl_global k file2 c2 cmd b2).2.1.val 1)) ∧
    (¬ (cmd = k.MATH_IOCTL_SQR ∨ cmd = k.MATH_IOCTL_NEG) → b1.val 1 = b2.val 1 →
      (math_ioctl_global k file1 c1 cmd b1).1 = (math_ioctl_global k file2 c2 cmd b2).1 ∧
      ((math_ioctl_global k file1 c1 cmd b1).1 = 0 →
        (math_ioctl_global k file1 c1 cmd b1).2.1.val 2 =
          (math_ioctl_global k file2 c2 cmd b2).2.1.val 2)) := by
  refine ⟨⟨?_, ?_⟩, fun hcmd => ?_, fun hcmd h1 => ?_⟩
  · rw [math_ioctl_global_eq, math_ioctl_global_eq]
  · rw [math_ioctl_global_eq, math_ioctl_global_eq]
  · rw [math_ioctl_global_eq, math_ioctl_global_eq]
    exact math_ioctl_congr_unary k hk cmd b1 b2 hr hw h0 hcmd
  · rw [math_ioctl_global_eq, math_ioctl_global_eq]
    exact math_ioctl_congr_binary k hk cmd b1 b2 hr hw h0 h1 hcmd

theorem command_independence_witness :
    sampleCodes.Distinct ∧ (mkBuf 6 3 0).readable = (mkBuf 6 3 77).readable ∧
    (mkBuf 6 3 0).writable = (mkBuf 6 3 77).writable ∧
    (mkBuf 6 3 0).val 0 = (mkBuf 6 3 77).val 0 ∧
    ((math_ioctl_global sampleCodes 10 4 sampleCodes.MATH_IOCTL_DIV (mkBuf 6 3 0)).1 =
        (math_ioctl_global sampleCodes 11 0 sampleCodes.MATH_IOCTL_DIV (mkBuf 6 3 77)).1 ∧
      ((math_ioctl_global sampleCodes 10 4 sampleCodes.MATH_IOCTL_DIV (mkBuf 6 3 0)).1 = 0 →
        (math_ioctl_global sampleCodes 10 4 sampleCodes.MATH_IOCTL_DIV (mkBuf 6 3 0)).2.1.val 2 =
          (math_ioctl_global sampleCodes 11 0 sampleCodes.MATH_IOCTL_DIV
            (mkBuf 6 3 77)).2.1.val 2)) :=
  ⟨by decide, rfl, rfl, rfl,
    (command_independence sampleCodes (by decide) sampleCodes.MATH_IOCTL_DIV 10 11 4 0
      (mkBuf 6 3 0) (mkBuf 6 3 77) rfl rfl rfl).2.2 (by decide) rfl⟩

/-! ## Admission under concurrency -/

theorem atomic_dec_return_eval {c : Int} (h1 : INT_MIN < c) (h2 : c ≤ INT_MAX) :
    atomic_dec_return c = (c - 1, c - 1) := by
  unfold INT_MIN at h1
  unfold INT_MAX at h2
  have hw : wrap32 (c - 1) = c - 1 :=
    wrap32_eq_self ⟨by unfold INT_MIN; omega, by unfold INT_MAX; omega⟩
  simp only [atomic_dec_return, hw]

theorem atomic_inc_eval {c : Int} (h1 : INT_MIN ≤ c) (h2 : c < INT_MAX) :
    atomic_inc c = c + 1 := by
  unfold INT_MIN at h1
  unfold INT_MAX at h2
  exact wrap32_eq_self ⟨by unfold INT_MIN; omega, by unfold INT_MAX; omega⟩

theorem boot_sound : Conc.boot.Sound := by
  unfold Conc.Sound Conc.boot
  refine ⟨by decide, by decide, List.nodup_nil, by simp, by simp, by simp⟩

/-- The counter of a sound state with fewer than `2 ^ 31` compensations to do
is in the range where the atomic operations do not wrap. -/
theorem sound_range {s : Conc} (hs : s.Sound) (hu : s.undo.length < 2 ^ 31) :
    INT_MIN < s.user_num ∧ s.user_num ≤ 4 ∧
      s.user_num = 4 - s.active.length - s.undo.length ∧ (s.active.length : Int) ≤ 4 := by
  obtain ⟨h1, h2, -, -, -, -⟩ := hs
  unfold MAX_USERS at h1 h2
  unfold INT_MIN
  have : (s.undo.length : Int) < 2 ^ 31 := by exact_mod_cast hu
  norm_num at this
  omega

theorem step_open_granted (s : Conc) (t : Nat) (hst : t ∉ s.started)
    (hmin : INT_MIN < s.user_num) (hmax : s.user_num ≤ 4) (hpos : 0 < s.user_num) :
    s.step (.open_dec t) =
      some ⟨s.user_num - 1, s.undo, t :: s.active, (t, 0) :: s.rets, t :: s.started⟩ := by
  simp only [Conc.step]
  rw [if_neg hst, atomic_dec_return_eval hmin (by unfold INT_MAX; omega)]
  simp only []
  rw [if_neg (by omega)]

theorem step_open_denied (s : Conc) (t : Nat) (hst : t ∉ s.started)
    (hmin : INT_MIN < s.user_num) (hle : s.user_num ≤ 0) :
    s.step (.open_dec t) =
      some ⟨s.user_num - 1, t :: s.undo, s.active, s.rets, t :: s.started⟩ := by
  simp only [Conc.step]
  rw [if_neg hst, atomic_dec_return_eval hmin (by unfold INT_MAX; omega)]
  simp only []
  rw [if_pos (by omega)]

theorem step_open_undo (s : Conc) (t : Nat) (hm : t ∈ s.undo)
    (hmin : INT_MIN < s.user_num) (hmax : s.user_num ≤ 4) :
    s.step (.open_undo t) =
      some ⟨s.user_num + 1, s.undo.erase t, s.active, (t, -EBUSY) :: s.rets, s.started⟩ := by
  simp only [Conc.step]
  rw [if_pos hm, atomic_inc_eval (le_of_lt hmin) (by unfold INT_MAX; omega)]

theorem step_release_inc (s : Conc) (sid : Nat) (hm : sid ∈ s.active)
    (hmin : INT_MIN < s.user_num) (hmax : s.user_num ≤ 4) :
    s.step (.release_inc sid) =
      some ⟨s.user_num + 1, s.undo, s.active.erase sid, s.rets, s.started⟩ := by
  simp only [Conc.step]
  rw [if_pos hm, atomic_inc_eval (le_of_lt hmin) (by unfold INT_MAX; omega)]

theorem step_enabled {s s' : Conc} {e : Step} (h : s.step e = some s') :
    match e with
    | .open_dec t => t ∉ s.started
    | .open_undo t => t ∈ s.undo
    | .release_inc sid => sid ∈ s.active := by
  cases e with
  | open_dec t =>
    simp only [Conc.step] at h
    by_cases hst : t ∈ s.started
    · rw [if_pos hst] at h; exact absurd h (by simp)
    · exact hst
  | open_undo t =>
    simp only [Conc.step] at h
    by_cases hm : t ∈ s.undo
    · exact hm
    · rw [if_neg hm] at h; exact absurd h (by simp)
  | release_inc sid =>
    simp only [Conc.step] at h
    by_cases hm : sid ∈ s.active
    · exact hm
    · rw [if_neg hm] at h; exact absurd h (by simp)

theorem step_sound {s s' : Conc} {e : Step} (hs : s.Sound) (hu : s.undo.length < 2 ^ 31)
    (h : s.step e = some s') : s'.Sound := by
  obtain ⟨hmin, hmax, hnum, hlen⟩ := sound_range hs hu
  obtain ⟨-, -, hnd, hact, hund, hgr⟩ := hs
  have hen := step_enabled h
  cases e with
  | open_dec t =>
    rcases lt_or_le 0 s.user_num with hpos | hle
    · rw [step_open_granted s t hen hmin hmax hpos, Option.some.injEq] at h
      subst h
      refine ⟨?_, ?_, ?_, ?_, ?_, ?_⟩
      · unfold MAX_USERS; simp only [List.length_cons]; push_cast; omega
      · unfold MAX_USERS; simp only [List.length_cons]; push_cast; omega
      · exact List.nodup_cons.2 ⟨fun hm => hen (hact t hm), hnd⟩
      · intro x hx
        rcases List.mem_cons.1 hx with rfl | hx
        · exact List.mem_cons_self _ _
        · exact List.mem_cons_of_mem _ (hact x hx)
      · intro x hx; exact List.mem_cons_of_mem _ (hund x hx)
      · intro x hx
        rcases List.mem_cons.1 hx with rfl | hx
        · exact List.mem_cons_self _ _
        · exact List.mem_cons_of_mem _ (hgr x hx)
    · rw [step_open_denied s t hen hmin hle, Option.some.injEq] at h
      subst h
      refine ⟨?_, ?_, hnd, ?_, ?_, hgr⟩
      · unfold MAX_USERS; simp only [List.length_cons]; push_cast; omega
      · unfold MAX_USERS; exact hlen
      · intro x hx; exact List.mem_cons_of_mem _ (hact x hx)
      · intro x hx
        rcases List.mem_cons.1 hx with rfl | hx
        · exact List.mem_cons_self _ _
        · exact List.mem_cons_of_mem _ (hund x hx)
  | open_undo t =>
    rw [step_open_undo s t hen hmin hmax, Option.some.injEq] at h
    subst h
    have hpos : 0 < s.undo.length := List.length_pos_of_mem hen
    have hl : (s.undo.erase t).length = s.undo.length - 1 := List.length_erase_of_mem hen
    refine ⟨?_, ?_, hnd, hact, ?_, ?_⟩
    · unfold MAX_USERS; dsimp only; rw [hl]; omega
    · unfold MAX_USERS; exact hlen
    · intro x hx; exact hund x (List.mem_of_mem_erase hx)
    · intro x hx; exact List.mem_cons_of_mem _ (hgr x hx)
  | release_inc sid =>
    rw [step_release_inc s sid hen hmin hmax, Option.some.injEq] at h
    subst h
    have hpos : 0 < s.active.length := List.length_pos_of_mem hen
    have hl : (s.active.erase sid).length = s.active.length - 1 :=
      List.length_erase_of_mem hen
    refine ⟨?_, ?_, hnd.erase sid, ?_, hund, ?_⟩
    · unfold MAX_USERS; dsimp only; rw [hl]; omega
    · unfold MAX_USERS; dsimp only; rw [hl]; omega
    · intro x hx; exact hact x (List.mem_of_mem_erase hx)
    · intro x hx; exact hgr x (List.mem_of_mem_erase hx)

theorem run_sound (σ : List Step) : ∀ (s s' : Conc), s.Sound →
    s.InFlightBelow (2 ^ 31) σ → s.run σ = some s' → s'.Sound := by
  induction σ with
  | nil =>
    intro s s' hs _ h
    simp only [Conc.run, Option.some.injEq] at h
    exact h ▸ hs
  | cons e rest ih =>
    intro s s' hs hfl h
    simp only [Conc.run] at h
    obtain ⟨hu, hrest⟩ := hfl
    cases hstep : s.step e with
    | none => rw [hstep] at h; exact absurd h (by simp)
    | some s1 =>
      rw [hstep] at h hrest
      exact ih s1 s' (step_sound hs hu hstep) hrest h

/-! ### Whole calls -/

theorem call_open_granted (f : Conc) (t : Nat) (hst : t ∉ f.started) (h0 : 0 < f.user_num)
    (h4 : f.user_num ≤ 4) :
    f.call (.w_open t) =
      some ⟨f.user_num - 1, f.undo, t :: f.active, (t, 0) :: f.rets, t :: f.started⟩ := by
  have ho := math_open_granted (c := f.user_num)
    (by unfold IsInt32 INT_MIN INT_MAX; omega) h0
  simp only [Conc.call, if_neg hst, ho, if_true]

theorem call_open_denied (f : Conc) (t : Nat) (hst : t ∉ f.started) (h0 : f.user_num = 0) :
    f.call (.w_open t) =
      some ⟨0, f.undo, f.active, (t, -EBUSY) :: f.rets, t :: f.started⟩ := by
  have ho : math_open f.user_num = (-EBUSY, 0) := by rw [h0]; decide
  have hne : ¬ (-EBUSY = 0) := by decide
  simp only [Conc.call, if_neg hst, ho, if_neg hne]

theorem call_release (f : Conc) (sid : Nat) (hm : sid ∈ f.active) (h0 : 0 ≤ f.user_num)
    (h3 : f.user_num ≤ 3) :
    f.call (.w_release sid) =
      some ⟨f.user_num + 1, f.undo, f.active.erase sid, f.rets, f.started⟩ := by
  have hr := math_release_eval (c := f.user_num)
    (by unfold IsInt32 INT_MIN INT_MAX; omega) (by unfold INT_MAX; omega)
  simp only [Conc.call, if_pos hm, hr]

theorem serial_append (a b : List WholeCall) : ∀ (s : Conc),
    s.serial (a ++ b) = (s.serial a).bind fun s' => s'.serial b := by
  induction a with
  | nil => intro s; rfl
  | cons c rest ih =>
    intro s
    simp only [List.cons_append, Conc.serial]
    cases s.call c with
    | none => rfl
    | some s1 => simp only [Option.some_bind, Option.bind_eq_bind]; exact ih s1

theorem serial_snoc {s f f' : Conc} {l : List WholeCall} {c : WholeCall}
    (h : s.serial l = some f) (hc : f.call c = some f') : s.serial (l ++ [c]) = some f' := by
  rw [serial_append, h]
  simp only [Option.some_bind, Conc.serial, hc]

theorem call_started_mono {s s' : Conc} {c : WholeCall} (h : s.call c = some s') :
    ∀ t ∈ s.started, t ∈ s'.started := by
  intro t ht
  cases c with
  | w_open t' =>
    simp only [Conc.call] at h
    by_cases hst : t' ∈ s.started
    · rw [if_pos hst] at h; exact absurd h (by simp)
    · rw [if_neg hst] at h
      simp only [Option.some.injEq] at h
      subst h
      exact List.mem_cons_of_mem _ ht
  | w_release sid =>
    simp only [Conc.call] at h
    by_cases hm : sid ∈ s.active
    · rw [if_pos hm] at h
      simp only [Option.some.injEq] at h
      subst h
      exact ht
    · rw [if_neg hm] at h; exact absurd h (by simp)

theorem serial_started_mono (l : List WholeCall) : ∀ (s s' : Conc), s.serial l = some s' →
    ∀ t ∈ s.started, t ∈ s'.started := by
  induction l with
  | nil =>
    intro s s' h t ht
    simp only [Conc.serial, Option.some.injEq] at h
    exact h ▸ ht
  | cons c rest ih =>
    intro s s' h t ht
    simp only [Conc.serial] at h
    cases hc : s.call c with
    | none => rw [hc] at h; exact absurd h (by simp)
    | some s1 =>
      rw [hc] at h
      exact ih s1 s' h t (call_started_mono hc t ht)

/-! ### A denied call more in a serial ordering -/

theorem call_deniedExtra {t : Nat} {a b a' : Conc} {c : WholeCall} (hsim : DeniedExtra t a b)
    (h : a.call c = some a') (hfresh : t ∉ a'.started) :
    ∃ b', b.call c = some b' ∧ DeniedExtra t a' b' := by
  obtain ⟨hu, hact, hr, hs⟩ := hsim
  cases c with
  | w_open t' =>
    simp only [Conc.call] at h ⊢
    by_cases hst : t' ∈ a.started
    · rw [if_pos hst] at h; exact absurd h (by simp)
    · rw [if_neg hst] at h
      rw [hu, hact]
      generalize math_open a.user_num = p at h ⊢
      obtain ⟨ret, cnt⟩ := p
      simp only [Option.some.injEq] at h
      subst h
      have ht : t ≠ t' ∧ t ∉ a.started := by
        simpa only [List.mem_cons, not_or] using hfresh
      have hst' : t' ∉ b.started := by
        rw [hs]
        rintro (h | h)
        · exact ht.1 h.symm
        · exact hst h
      rw [if_neg hst']
      refine ⟨_, rfl, rfl, rfl, fun x => ?_, fun x => ?_⟩
      · simp only [List.mem_cons, hr]
        tauto
      · simp only [List.mem_cons, hs]
        tauto
  | w_release sid =>
    simp only [Conc.call] at h ⊢
    by_cases hm : sid ∈ a.active
    · rw [if_pos hm] at h
      rw [hu, hact, if_pos hm]
      generalize math_release a.user_num = p at h ⊢
      obtain ⟨ret, cnt⟩ := p
      simp only [Option.some.injEq] at h
      subst h
      exact ⟨_, rfl, rfl, rfl, hr, hs⟩
    · rw [if_neg hm] at h; exact absurd h (by simp)

theorem serial_deniedExtra {t : Nat} (l : List WholeCall) : ∀ (a b a' : Conc),
    DeniedExtra t a b → a.serial l = some a' → t ∉ a'.started →
    ∃ b', b.serial l = some b' ∧ DeniedExtra t a' b' := by
  induction l with
  | nil =>
    intro a b a' hsim h _
    simp only [Conc.serial, Option.some.injEq] at h
    subst h
    exact ⟨b, rfl, hsim⟩
  | cons c rest ih =>
    intro a b a' hsim h hfresh
    simp only [Conc.serial] at h
    cases hc : a.call c with
    | none => rw [hc] at h; exact absurd h (by simp)
    | some a1 =>
      rw [hc] at h
      simp only [Option.some_bind] at h
      have hf1 : t ∉ a1.started := fun hmem => hfresh (serial_started_mono rest a1 a' h t hmem)
      obtain ⟨b1, hb1, hsim1⟩ := call_deniedExtra hsim hc hf1
      obtain ⟨b', hb', hsim'⟩ := ih a1 b1 a' hsim1 h hfresh
      refine ⟨b', ?_, hsim'⟩
      simp only [Conc.serial, hb1, Option.some_bind]
      exact hb'

/-! ### Every interleaving has a serial ordering -/

theorem boot_serialises : Serialises [] Conc.boot :=
  ⟨[], [], Conc.boot, Conc.boot, List.Perm.refl _, rfl, rfl, fun h => absurd rfl h,
    by simp [Conc.boot], rfl, fun t r => by simp [Conc.boot], fun t => Iff.rfl⟩

theorem step_serialises {s s' : Conc} {e : Step} {calls : List WholeCall} (hs : s.Sound)
    (hu : s.undo.length < 2 ^ 31) (hser : Serialises calls s) (h : s.step e = some s') :
    Serialises (calls ++ callsOf [e]) s' := by
  obtain ⟨hmin, hmax, hnum, hlen⟩ := sound_range hs hu
  obtain ⟨pre, post, m, f, hperm, hpre, hpost, hz, hc, ha, hr, hst⟩ := hser
  have hen := step_enabled h
  have hf0 : 0 ≤ f.user_num := by rw [hc]; omega
  have hf4 : f.user_num ≤ 4 := by rw [hc]; omega
  cases e with
  | open_dec t =>
    have hfresh : t ∉ f.started := fun hm => hen ((hst t).1 hm)
    rcases lt_or_le 0 s.user_num with hpos | hle
    · -- granted
      rw [step_open_granted s t hen hmin hmax hpos, Option.some.injEq] at h
      subst h
      have hcall := call_open_granted f t hfresh (by rw [hc]; omega) hf4
      refine ⟨pre, post ++ [.w_open t], m,
        ⟨f.user_num - 1, f.undo, t :: f.active, (t, 0) :: f.rets, t :: f.started⟩,
        ?_, hpre, serial_snoc hpost hcall, hz,
        ?_, ?_, fun x r => ?_, fun x => ?_⟩
      · rw [← List.append_assoc]
        exact hperm.append_right _
      · show f.user_num - 1 = s.user_num - 1 + s.undo.length
        omega
      · show t :: f.active = t :: s.active
        rw [ha]
      · show (x, r) ∈ (t, (0 : Int)) :: f.rets ↔
          ((x, r) ∈ (t, (0 : Int)) :: s.rets ∨ (x ∈ s.undo ∧ r = -EBUSY))
        simp only [List.mem_cons, hr]
        tauto
      · show x ∈ t :: f.started ↔ x ∈ t :: s.started
        simp only [List.mem_cons, hst]
    · -- denied
      rw [step_open_denied s t hen hmin hle, Option.some.injEq] at h
      subst h
      by_cases hnil : s.undo = []
      · have hlen0 : s.undo.length = 0 := by rw [hnil]; rfl
        have hfz : f.user_num = 0 := by rw [hc, hlen0]; omega
        have hcall := call_open_denied f t hfresh hfz
        have hrun : Conc.boot.serial (pre ++ post ++ [.w_open t]) =
            some ⟨0, f.undo, f.active, (t, -EBUSY) :: f.rets, t :: f.started⟩ := by
          refine serial_snoc ?_ hcall
          rw [serial_append, hpre]
          exact hpost
        refine ⟨pre ++ post ++ [.w_open t], [],
          ⟨0, f.undo, f.active, (t, -EBUSY) :: f.rets, t :: f.started⟩,
          ⟨0, f.undo, f.active, (t, -EBUSY) :: f.rets, t :: f.started⟩,
          ?_, hrun, rfl, fun _ => rfl,
          ?_, ha, fun x r => ?_, fun x => ?_⟩
        · rw [List.append_nil]
          exact hperm.append_right _
        · show (0 : Int) = s.user_num - 1 + ((t :: s.undo).length : Nat)
          simp only [List.length_cons, hlen0]
          push_cast
          omega
        · show (x, r) ∈ (t, -EBUSY) :: f.rets ↔
            ((x, r) ∈ s.rets ∨ (x ∈ t :: s.undo ∧ r = -EBUSY))
          simp only [List.mem_cons, hr, Prod.mk.injEq]
          tauto
        · show x ∈ t :: f.started ↔ x ∈ t :: s.started
          simp only [List.mem_cons, hst]
      · have hmz : m.user_num = 0 := hz hnil
        have hmfresh : t ∉ m.started :=
          fun hm => hfresh (serial_started_mono post m f hpost t hm)
        have hcall := call_open_denied m t hmfresh hmz
        have hsim : DeniedExtra t m
            ⟨0, m.undo, m.active, (t, -EBUSY) :: m.rets, t :: m.started⟩ :=
          ⟨hmz.symm, rfl, fun x => by simp only [List.mem_cons],
            fun x => by simp only [List.mem_cons]⟩
        obtain ⟨f', hf', hfu, hfa, hfr, hfs⟩ := serial_deniedExtra post m _ f hsim hpost hfresh
        refine ⟨pre ++ [.w_open t], post,
          ⟨0, m.undo, m.active, (t, -EBUSY) :: m.rets, t :: m.started⟩, f',
          ?_, serial_snoc hpre hcall, hf',
          fun _ => rfl, ?_, ?_, fun x r => ?_, fun x => ?_⟩
        · have h1 : (pre ++ [WholeCall.w_open t] ++ post).Perm
              (pre ++ post ++ [WholeCall.w_open t]) := by
            rw [List.append_assoc, List.append_assoc]
            exact List.Perm.append_left pre List.perm_append_comm
          exact h1.trans (hperm.append_right _)
        · show f'.user_num = s.user_num - 1 + ((t :: s.undo).length : Nat)
          rw [hfu, hc]
          simp only [List.length_cons]
          push_cast
          omega
        · show f'.active = s.active
          rw [hfa, ha]
        · show (x, r) ∈ f'.rets ↔ ((x, r) ∈ s.rets ∨ (x ∈ t :: s.undo ∧ r = -EBUSY))
          rw [hfr, hr]
          simp only [List.mem_cons, Prod.mk.injEq]
          tauto
        · show x ∈ f'.started ↔ x ∈ t :: s.started
          rw [hfs, hst]
          simp only [List.mem_cons]
  | open_undo t =>
    rw [step_open_undo s t hen hmin hmax, Option.some.injEq] at h
    subst h
    have hpos : 0 < s.undo.length := List.length_pos_of_mem hen
    have hl : (s.undo.erase t).length = s.undo.length - 1 := List.length_erase_of_mem hen
    refine ⟨pre, post, m, f, ?_, hpre, hpost, fun _ => hz (List.ne_nil_of_mem hen),
      ?_, ha, fun x r => ?_, hst⟩
    · simpa [callsOf] using hperm
    · show f.user_num = s.user_num + 1 + ((s.undo.erase t).length : Nat)
      rw [hl, hc]
      omega
    · show (x, r) ∈ f.rets ↔
        ((x, r) ∈ (t, -EBUSY) :: s.rets ∨ (x ∈ s.undo.erase t ∧ r = -EBUSY))
      rw [hr]
      simp only [List.mem_cons, Prod.mk.injEq]
      constructor
      · rintro (h1 | ⟨h1, h2⟩)
        · exact Or.inl (Or.inr h1)
        · by_cases hx : x = t
          · exact Or.inl (Or.inl ⟨hx, h2⟩)
          · exact Or.inr ⟨(List.mem_erase_of_ne hx).2 h1, h2⟩
      · rintro ((⟨h1, h2⟩ | h1) | ⟨h1, h2⟩)
        · exact Or.inr ⟨h1 ▸ hen, h2⟩
        · exact Or.inl h1
        · exact Or.inr ⟨List.mem_of_mem_erase h1, h2⟩
  | release_inc sid =>
    rw [step_release_inc s sid hen hmin hmax, Option.some.injEq] at h
    subst h
    have hpos : 0 < s.active.length := List.length_pos_of_mem hen
    have hcall := call_release f sid (ha ▸ hen) hf0 (by rw [hc]; omega)
    refine ⟨pre, post ++ [.w_release sid], m,
      ⟨f.user_num + 1, f.undo, f.active.erase sid, f.rets, f.started⟩,
      ?_, hpre, serial_snoc hpost hcall, hz,
      ?_, ?_, hr, hst⟩
    · rw [← List.append_assoc]
      exact hperm.append_right _
    · show f.user_num + 1 = s.user_num + 1 + s.undo.length
      omega
    · show f.active.erase sid = s.active.erase sid
      rw [ha]

theorem callsOf_cons (e : Step) (rest : List Step) :
    callsOf (e :: rest) = callsOf [e] ++ callsOf rest := by
  cases e <;> rfl

theorem run_serialises (σ : List Step) : ∀ (s s' : Conc) (calls : List WholeCall), s.Sound →
    s.InFlightBelow (2 ^ 31) σ → Serialises calls s → s.run σ = some s' →
    Serialises (calls ++ callsOf σ) s' := by
  induction σ with
  | nil =>
    intro s s' calls _ _ hser h
    simp only [Conc.run, Option.some.injEq] at h
    subst h
    simpa [callsOf] using hser
  | cons e rest ih =>
    intro s s' calls hs hfl hser h
    simp only [Conc.run] at h
    obtain ⟨hu, hrest⟩ := hfl
    cases hstep : s.step e with
    | none => rw [hstep] at h; exact absurd h (by simp)
    | some s1 =>
      rw [hstep] at h hrest
      have h1 := ih s1 s' _ (step_sound hs hu hstep) hrest (step_serialises hs hu hser hstep) h
      rwa [callsOf_cons, ← List.append_assoc]

/-! ### Racing opens -/

/-- Without a `math_release`, sessions stay active, and an open that has
returned 0 by the end had returned 0 at the start or has its session
active. -/
theorem noRelease_mono (τ : List Step) : ∀ (s s' : Conc), NoRelease τ → s.Sound →
    s.InFlightBelow (2 ^ 31) τ → s.run τ = some s' →
    (∀ t ∈ s.active, t ∈ s'.active) ∧
    (∀ t, (t, (0 : Int)) ∈ s'.rets → (t, (0 : Int)) ∈ s.rets ∨ t ∈ s'.active) := by
  induction τ with
  | nil =>
    intro s s' _ _ _ h
    simp only [Conc.run, Option.some.injEq] at h
    subst h
    exact ⟨fun t ht => ht, fun t ht => Or.inl ht⟩
  | cons e rest ih =>
    intro s s' hnr hs hfl h
    simp only [Conc.run] at h
    obtain ⟨hu, hrest⟩ := hfl
    obtain ⟨hmin, hmax, -, -⟩ := sound_range hs hu
    cases hstep : s.step e with
    | none => rw [hstep] at h; exact absurd h (by simp)
    | some s1 =>
      rw [hstep] at h hrest
      have hen := step_enabled hstep
      have hs1 := step_sound hs hu hstep
      cases e with
      | open_dec t =>
        obtain ⟨ih1, ih2⟩ := ih s1 s' hnr hs1 hrest h
        rcases lt_or_le 0 s.user_num with hpos | hle
        · rw [step_open_granted s t hen hmin hmax hpos, Option.some.injEq] at hstep
          subst hstep
          refine ⟨fun x hx => ih1 x (List.mem_cons_of_mem _ hx), fun x hx => ?_⟩
          rcases ih2 x hx with h1 | h1
          · rcases List.mem_cons.1 h1 with h2 | h2
            · have hxt : x = t := (Prod.mk.injEq _ _ _ _ ▸ h2).1
              exact Or.inr (ih1 x (hxt ▸ List.mem_cons_self _ _))
            · exact Or.inl h2
          · exact Or.inr h1
        · rw [step_open_denied s t hen hmin hle, Option.some.injEq] at hstep
          subst hstep
          exact ⟨fun x hx => ih1 x hx, fun x hx => ih2 x hx⟩
      | open_undo t =>
        obtain ⟨ih1, ih2⟩ := ih s1 s' hnr hs1 hrest h
        rw [step_open_undo s t hen hmin hmax, Option.some.injEq] at hstep
        subst hstep
        refine ⟨fun x hx => ih1 x hx, fun x hx => ?_⟩
        rcases ih2 x hx with h1 | h1
        · rcases List.mem_cons.1 h1 with h2 | h2
          · have h0 : (0 : Int) = -EBUSY := (Prod.mk.injEq _ _ _ _ ▸ h2).2
            exact absurd h0 (by decide)
          · exact Or.inl h2
        · exact Or.inr h1
      | release_inc sid => exact absurd hnr (by simp [NoRelease])

theorem inFlight_take {bound : Nat} (σ : List Step) : ∀ (s : Conc) (n : Nat),
    s.InFlightBelow bound σ → s.InFlightBelow bound (σ.take n) := by
  induction σ with
  | nil => intro s n h; simpa using h
  | cons e rest ih =>
    intro s n h
    cases n with
    | zero => exact h.1
    | succ n =>
      refine ⟨h.1, ?_⟩
      have h2 := h.2
      cases hstep : s.step e with
      | none => trivial
      | some s1 =>
        rw [hstep] at h2
        exact ih s1 n h2

/-- C18 (atomic admission under concurrency). Take any interleaving of the
atomic steps of `math_open` and `math_release` calls from the state
`math_init` sets, with fewer than `2 ^ 31` calls inside `math_open` at a time.
At every moment at most 4 sessions are granted and unclosed. When one unit of
capacity remains and no call is in flight, then however the steps of further
`math_open` calls interleave, no `math_release` among them, no two of them
both return 0. And once every call has returned, some serial ordering of the
same calls, each run whole by `math_open` or `math_release`, returns the same
value to every `math_open`, leaves the same sessions active and leaves the
counter at the same value. -/
theorem atomic_admission (σ : List Step) (s : Conc)
    (hfl : Conc.boot.InFlightBelow (2 ^ 31) σ) (hrun : Conc.boot.run σ = some s) :
    (∀ n s1, Conc.boot.run (σ.take n) = some s1 → s1.active.length ≤ 4) ∧
    (s.user_num = 1 → s.undo = [] →
      ∀ (τ : List Step) (s' : Conc), NoRelease τ → s.InFlightBelow (2 ^ 31) τ →
        s.run τ = some s' →
        ∀ t1 t2, t1 ≠ t2 → (t1, (0 : Int)) ∉ s.rets → (t2, (0 : Int)) ∉ s.rets →
          ¬ ((t1, (0 : Int)) ∈ s'.rets ∧ (t2, (0 : Int)) ∈ s'.rets)) ∧
    (s.undo = [] →
      ∃ (order : List WholeCall) (f : Conc), order.Perm (callsOf σ) ∧
        Conc.boot.serial order = some f ∧ f.user_num = s.user_num ∧
        f.active = s.active ∧ ∀ t r, (t, r) ∈ f.rets ↔ (t, r) ∈ s.rets) := by
  have hs : s.Sound := run_sound σ _ s boot_sound hfl hrun
  refine ⟨fun n s1 h1 => ?_, fun hone hquiet τ s' hnr hfl' hrun' t1 t2 hne h1 h2 hboth => ?_,
    fun hquiet => ?_⟩
  · have hs1 := run_sound (σ.take n) _ s1 boot_sound (inFlight_take σ _ n hfl) h1
    have := hs1.2.1
    unfold MAX_USERS at this
    exact_mod_cast this
  · have hs' : s'.Sound := run_sound τ s s' hs hfl' hrun'
    obtain ⟨hsub, hgr⟩ := noRelease_mono τ s s' hnr hs hfl' hrun'
    have ha1 : t1 ∈ s'.active := (hgr t1 hboth.1).resolve_left h1
    have ha2 : t2 ∈ s'.active := (hgr t2 hboth.2).resolve_left h2
    have hn1 : t1 ∉ s.active := fun h => h1 (hs.2.2.2.2.2 t1 h)
    have hn2 : t2 ∉ s.active := fun h => h2 (hs.2.2.2.2.2 t2 h)
    have hnd : (t1 :: t2 :: s.active).Nodup := by
      refine List.nodup_cons.2 ⟨?_, List.nodup_cons.2 ⟨hn2, hs.2.2.1⟩⟩
      intro h
      rcases List.mem_cons.1 h with h | h
      · exact hne h
      · exact hn1 h
    have hsubset : t1 :: t2 :: s.active ⊆ s'.active := by
      intro x hx
      rcases List.mem_cons.1 hx with rfl | hx
      · exact ha1
      · rcases List.mem_cons.1 hx with rfl | hx
        · exact ha2
        · exact hsub x hx
    have hle := (hnd.subperm hsubset).length_le
    have h4 := hs'.2.1
    have hnum := hs.1
    unfold MAX_USERS at h4 hnum
    rw [hone, hquiet] at hnum
    simp only [List.length_cons, List.length_nil] at hle hnum
    omega
  · obtain ⟨pre, post, m, f, hperm, hpre, hpost, -, hc, ha, hr, -⟩ :=
      run_serialises σ _ s [] boot_sound hfl boot_serialises hrun
    refine ⟨pre ++ post, f, by simpa using hperm, ?_, ?_, ha, fun t r => ?_⟩
    · rw [serial_append, hpre]
      exact hpost
    · rw [hc, hquiet]
      simp
    · rw [hr, hquiet]
      simp

theorem atomic_admission_witness :
    Conc.boot.InFlightBelow (2 ^ 31)
      [.open_dec 0, .open_dec 1, .open_dec 2, .open_dec 3, .open_dec 4, .release_inc 2,
        .open_dec 5, .open_undo 4, .open_undo 5] ∧
    Conc.boot.run
      [.open_dec 0, .open_dec 1, .open_dec 2, .open_dec 3, .open_dec 4, .release_inc 2,
        .open_dec 5, .open_undo 4, .open_undo 5] =
      some ⟨1, [], [3, 1, 0],
        [(5, -EBUSY), (4, -EBUSY), (3, 0), (2, 0), (1, 0), (0, 0)], [5, 4, 3, 2, 1, 0]⟩ ∧
    Conc.boot.serial
      [.w_open 0, .w_open 1, .w_open 2, .w_open 3, .w_open 4, .w_open 5, .w_release 2] =
      some ⟨1, [], [3, 1, 0],
        [(5, -EBUSY), (4, -EBUSY), (3, 0), (2, 0), (1, 0), (0, 0)], [5, 4, 3, 2, 1, 0]⟩ ∧
    (∃ (order : List WholeCall) (f : Conc),
      order.Perm (callsOf
        [.open_dec 0, .open_dec 1, .open_dec 2, .open_dec 3, .open_dec 4, .release_inc 2,
          .open_dec 5, .open_undo 4, .open_undo 5]) ∧
      Conc.boot.serial order = some f ∧ f.user_num = 1 ∧ f.active = [3, 1, 0] ∧
      ∀ t r, (t, r) ∈ f.rets ↔
        (t, r) ∈ [(5, -EBUSY), (4, -EBUSY), (3, 0), (2, 0), (1, 0), (0, (0 : Int))]) :=
  ⟨by decide, by rfl, by rfl,
    (atomic_admission
      [.open_dec 0, .open_dec 1, .open_dec 2, .open_dec 3, .open_dec 4, .release_inc 2,
        .open_dec 5, .open_undo 4, .open_undo 5]
      ⟨1, [], [3, 1, 0],
        [(5, -EBUSY), (4, -EBUSY), (3, 0), (2, 0), (1, 0), (0, 0)], [5, 4, 3, 2, 1, 0]⟩
      (by decide) (by rfl)).2.2 rfl⟩

/-! ## The counter and the quota with calls in flight -/

theorem inFlight_final {bound : Nat} (σ : List Step) : ∀ (s0 s : Conc),
    s0.InFlightBelow bound σ → s0.run σ = some s → s.undo.length < bound := by
  induction σ with
  | nil =>
    intro s0 s h hrun
    simp only [Conc.run, Option.some.injEq] at hrun
    exact hrun ▸ h
  | cons e rest ih =>
    intro s0 s h hrun
    simp only [Conc.run] at hrun
    have h2 := h.2
    cases hstep : s0.step e with
    | none => rw [hstep] at hrun; exact absurd hrun (by simp)
    | some s1 =>
      rw [hstep] at hrun h2
      exact ih s1 s h2 hrun

/-- A `math_open` call on the denied path stays there: it never returns 0,
and it is waiting for its compensation or has returned `-EBUSY`. -/
theorem denied_stays (t : Nat) (τ : List Step) : ∀ (s1 s2 : Conc), s1.Sound →
    s1.InFlightBelow (2 ^ 31) τ → s1.run τ = some s2 → t ∈ s1.started →
    (t, (0 : Int)) ∉ s1.rets → (t ∈ s1.undo ∨ (t, -EBUSY) ∈ s1.rets) →
    (t, (0 : Int)) ∉ s2.rets ∧ (t ∈ s2.undo ∨ (t, -EBUSY) ∈ s2.rets) := by
  induction τ with
  | nil =>
    intro s1 s2 _ _ hrun _ h0 hd
    simp only [Conc.run, Option.some.injEq] at hrun
    subst hrun
    exact ⟨h0, hd⟩
  | cons e rest ih =>
    intro s1 s2 hs hfl hrun hst h0 hd
    simp only [Conc.run] at hrun
    obtain ⟨hu, hrest⟩ := hfl
    obtain ⟨hmin, hmax, -, -⟩ := sound_range hs hu
    cases hstep : s1.step e with
    | none => rw [hstep] at hrun; exact absurd hrun (by simp)
    | some s' =>
      rw [hstep] at hrun hrest
      have hen := step_enabled hstep
      have hs' := step_sound hs hu hstep
      refine ih s' s2 hs' hrest hrun ?_ ?_ ?_
      · cases e with
        | open_dec t' =>
          rcases lt_or_le 0 s1.user_num with hpos | hle
          · rw [step_open_granted s1 t' hen hmin hmax hpos, Option.some.injEq] at hstep
            subst hstep
            exact List.mem_cons_of_mem _ hst
          · rw [step_open_denied s1 t' hen hmin hle, Option.some.injEq] at hstep
            subst hstep
            exact List.mem_cons_of_mem _ hst
        | open_undo t' =>
          rw [step_open_undo s1 t' hen hmin hmax, Option.some.injEq] at hstep
          subst hstep
          exact hst
        | release_inc sid =>
          rw [step_release_inc s1 sid hen hmin hmax, Option.some.injEq] at hstep
          subst hstep
          exact hst
      · cases e with
        | open_dec t' =>
          have hne : t ≠ t' := fun h => hen (h ▸ hst)
          rcases lt_or_le 0 s1.user_num with hpos | hle
          · rw [step_open_granted s1 t' hen hmin hmax hpos, Option.some.injEq] at hstep
            subst hstep
            intro hmem
            rcases List.mem_cons.1 hmem with h | h
            · exact hne (Prod.mk.injEq _ _ _ _ ▸ h).1
            · exact h0 h
          · rw [step_open_denied s1 t' hen hmin hle, Option.some.injEq] at hstep
            subst hstep
            exact h0
        | open_undo t' =>
          rw [step_open_undo s1 t' hen hmin hmax, Option.some.injEq] at hstep
          subst hstep
          intro hmem
          rcases List.mem_cons.1 hmem with h | h
          · have h' : (0 : Int) = -EBUSY := (Prod.mk.injEq _ _ _ _ ▸ h).2
            exact absurd h' (by decide)
          · exact h0 h
        | release_inc sid =>
          rw [step_release_inc s1 sid hen hmin hmax, Option.some.injEq] at hstep
          subst hstep
          exact h0
      · cases e with
        | open_dec t' =>
          rcases lt_or_le 0 s1.user_num with hpos | hle
          · rw [step_open_granted s1 t' hen hmin hmax hpos, Option.some.injEq] at hstep
            subst hstep
            rcases hd with h | h
            · exact Or.inl h
            · exact Or.inr (List.mem_cons_of_mem _ h)
          · rw [step_open_denied s1 t' hen hmin hle, Option.some.injEq] at hstep
            subst hstep
            rcases hd with h | h
            · exact Or.inl (List.mem_cons_of_mem _ h)
            · exact Or.inr h
        | open_undo t' =>
          rw [step_open_undo s1 t' hen hmin hmax, Option.some.injEq] at hstep
          subst hstep
          rcases hd with h | h
          · by_cases hx : t = t'
            · exact Or.inr (hx ▸ List.mem_cons_self _ _)
            · exact Or.inl ((List.mem_erase_of_ne hx).2 h)
          · exact Or.inr (List.mem_cons_of_mem _ h)
        | release_inc sid =>
          rw [step_release_inc s1 sid hen hmin hmax, Option.some.injEq] at hstep
          subst hstep
          exact hd

/-- Every call that has returned is a call made. -/
theorem run_rets_started (σ : List Step) : ∀ (s0 s : Conc), s0.Sound →
    s0.InFlightBelow (2 ^ 31) σ → s0.run σ = some s →
    (∀ x ∈ s0.rets, x.1 ∈ s0.started) → ∀ x ∈ s.rets, x.1 ∈ s.started := by
  induction σ with
  | nil =>
    intro s0 s _ _ hrun h
    simp only [Conc.run, Option.some.injEq] at hrun
    exact hrun ▸ h
  | cons e rest ih =>
    intro s0 s hs hfl hrun h
    simp only [Conc.run] at hrun
    obtain ⟨hu, hrest⟩ := hfl
    obtain ⟨hmin, hmax, -, -⟩ := sound_range hs hu
    cases hstep : s0.step e with
    | none => rw [hstep] at hrun; exact absurd hrun (by simp)
    | some s' =>
      rw [hstep] at hrun hrest
      have hen := step_enabled hstep
      refine ih s' s (step_sound hs hu hstep) hrest hrun ?_
      cases e with
      | open_dec t' =>
        rcases lt_or_le 0 s0.user_num with hpos | hle
        · rw [step_open_granted s0 t' hen hmin hmax hpos, Option.some.injEq] at hstep
          subst hstep
          intro x hx
          rcases List.mem_cons.1 hx with rfl | hx
          · exact List.mem_cons_self _ _
          · exact List.mem_cons_of_mem _ (h x hx)
        · rw [step_open_denied s0 t' hen hmin hle, Option.some.injEq] at hstep
          subst hstep
          intro x hx
          exact List.mem_cons_of_mem _ (h x hx)
      | open_undo t' =>
        rw [step_open_undo s0 t' hen hmin hmax, Option.some.injEq] at hstep
        subst hstep
        intro x hx
        rcases List.mem_cons.1 hx with rfl | hx
        · exact hs.2.2.2.2.1 t' hen
        · exact h x hx
      | release_inc sid =>
        rw [step_release_inc s0 sid hen hmin hmax, Option.some.injEq] at hstep
        subst hstep
        exact h

/-- C11, counterexample. Four sessions are active and a fifth `math_open`,
denied, is between its `atomic_dec_return` and its `atomic_inc`, the counter
at -1. The `math_release` of session 0 then returns 0 and leaves the counter
at 0, and the very next `math_open`, call 5, is denied: it returns
`-EBUSY`. -/
theorem quota_open_in_flight_counterexample :
    Conc.boot.run [.open_dec 0, .open_dec 1, .open_dec 2, .open_dec 3, .open_dec 4] =
      some ⟨-1, [4], [3, 2, 1, 0], [(3, 0), (2, 0), (1, 0), (0, 0)], [4, 3, 2, 1, 0]⟩ ∧
    math_release (-1) = (0, 0) ∧ math_open 0 = (-EBUSY, 0) ∧
    Conc.boot.run
      [.open_dec 0, .open_dec 1, .open_dec 2, .open_dec 3, .open_dec 4, .release_inc 0,
        .open_dec 5, .open_undo 5] =
      some ⟨0, [4], [3, 2, 1], [(5, -EBUSY), (3, 0), (2, 0), (1, 0), (0, 0)],
        [5, 4, 3, 2, 1, 0]⟩ ∧
    (5, -EBUSY) ∈ [(5, -EBUSY), (3, 0), (2, 0), (1, 0), (0, (0 : Int))] ∧
    ¬ ((5, (0 : Int)) ∈ [(5, -EBUSY), (3, 0), (2, 0), (1, 0), (0, (0 : Int))]) :=
  ⟨by rfl, by decide, by decide, by rfl, by decide, by decide⟩

/-- C11, as amended. From the state `math_init` sets, four consecutive
`math_open` calls all return 0, and they still do when a session was opened
and closed before them. In every state `s` an interleaving of calls reaches:
with 4 sessions active, a `math_open` whose `atomic_dec_return` is taken
there is denied, so it never returns 0 and returns `-EBUSY` once its
compensation is done; `math_release` returns 0 and, for an active session,
raises the counter by exactly one and takes that one session off the active
ones; and when no `math_open` is in flight between its `atomic_dec_return`
and its `atomic_inc`, the `math_open` that comes right after the
`math_release` of an active session returns 0. -/
theorem quota_scenario (err : Int) (σ : List Step) (s : Conc)
    (hfl : Conc.boot.InFlightBelow (2 ^ 31) σ) (hrun : Conc.boot.run σ = some s) :
    (∀ i, i < 4 →
      (math_open ((boot err).run (List.replicate i .do_open)).user_num).1 = 0) ∧
    (∀ i, i < 4 →
      (math_open ((boot err).run
        (.do_open :: .do_release 0 :: List.replicate i .do_open)).user_num).1 = 0) ∧
    (s.active.length = 4 → ∀ t s1, s.step (.open_dec t) = some s1 →
      t ∈ s1.undo ∧
      ∀ τ s2, s1.InFlightBelow (2 ^ 31) τ → s1.run τ = some s2 →
        (t, (0 : Int)) ∉ s2.rets ∧ (t ∈ s2.undo ∨ (t, -EBUSY) ∈ s2.rets)) ∧
    (∀ c, (math_release c).1 = 0) ∧
    (∀ sid s1, s.step (.release_inc sid) = some s1 →
      s1.user_num = s.user_num + 1 ∧ s1.active.length + 1 = s.active.length) ∧
    (s.undo = [] → ∀ sid s1 t s2, s.step (.release_inc sid) = some s1 →
      s1.step (.open_dec t) = some s2 → (t, (0 : Int)) ∈ s2.rets ∧ t ∈ s2.active) := by
  have hs : s.Sound := run_sound σ _ s boot_sound hfl hrun
  have hu : s.undo.length < 2 ^ 31 := inFlight_final σ _ s hfl hrun
  obtain ⟨hmin, hmax, hnum, hlen⟩ := sound_range hs hu
  refine ⟨?_, ?_, ?_, fun c => rfl, ?_, ?_⟩
  · intro i hi
    rw [boot_eq]
    interval_cases i <;> decide
  · intro i hi
    rw [boot_eq]
    interval_cases i <;> decide
  · intro hfull t s1 hstep
    have hen := step_enabled hstep
    have hs1 := step_sound hs hu hstep
    have hle : s.user_num ≤ 0 := by rw [hnum, hfull]; push_cast; omega
    have hstep' := hstep
    rw [step_open_denied s t hen hmin hle, Option.some.injEq] at hstep'
    subst hstep'
    have h0 : (t, (0 : Int)) ∉ s.rets := fun h =>
      hen (run_rets_started σ _ s boot_sound hfl hrun (fun x hx => by simp [Conc.boot] at hx)
        (t, 0) h)
    exact ⟨List.mem_cons_self _ _, fun τ s2 hfl2 hrun2 =>
      denied_stays t τ _ s2 hs1 hfl2 hrun2 (List.mem_cons_self _ _) h0
        (Or.inl (List.mem_cons_self _ _))⟩
  · intro sid s1 hstep
    have hen := step_enabled hstep
    rw [step_release_inc s sid hen hmin hmax, Option.some.injEq] at hstep
    subst hstep
    have hpos : 0 < s.active.length := List.length_pos_of_mem hen
    refine ⟨rfl, ?_⟩
    show (s.active.erase sid).length + 1 = s.active.length
    rw [List.length_erase_of_mem hen]
    omega
  · intro hquiet sid s1 t s2 hstep hstep2
    have hen := step_enabled hstep
    have hs1 := step_sound hs hu hstep
    rw [step_release_inc s sid hen hmin hmax, Option.some.injEq] at hstep
    subst hstep
    have hen2 := step_enabled hstep2
    have hpos : 0 < s.active.length := List.length_pos_of_mem hen
    have hlen0 : s.undo.length = 0 := by rw [hquiet]; rfl
    rw [step_open_granted _ t hen2 (by show INT_MIN < s.user_num + 1; omega)
      (by show s.user_num + 1 ≤ 4; omega) (by show 0 < s.user_num + 1; omega),
      Option.some.injEq] at hstep2
    subst hstep2
    exact ⟨List.mem_cons_self _ _, List.mem_cons_self _ _⟩

theorem quota_scenario_witness :
    Conc.boot.InFlightBelow (2 ^ 31) [.open_dec 0, .open_dec 1, .open_dec 2, .open_dec 3] ∧
    Conc.boot.run [.open_dec 0, .open_dec 1, .open_dec 2, .open_dec 3] =
      some ⟨0, [], [3, 2, 1, 0], [(3, 0), (2, 0), (1, 0), (0, 0)], [3, 2, 1, 0]⟩ ∧
    (⟨0, [], [3, 2, 1, 0], [(3, 0), (2, 0), (1, 0), (0, 0)], [3, 2, 1, 0]⟩ : Conc).step
        (.release_inc 2) =
      some ⟨1, [], [3, 1, 0], [(3, 0), (2, 0), (1, 0), (0, 0)], [3, 2, 1, 0]⟩ ∧
    (⟨1, [], [3, 1, 0], [(3, 0), (2, 0), (1, 0), (0, 0)], [3, 2, 1, 0]⟩ : Conc).step
        (.open_dec 4) =
      some ⟨0, [], [4, 3, 1, 0], [(4, 0), (3, 0), (2, 0), (1, 0), (0, 0)],
        [4, 3, 2, 1, 0]⟩ ∧
    ((4, (0 : Int)) ∈ [(4, 0), (3, 0), (2, 0), (1, 0), (0, (0 : Int))] ∧
      4 ∈ [4, 3, 1, 0]) :=
  ⟨by decide, by rfl, by rfl, by rfl,
    (quota_scenario 0 [.open_dec 0, .open_dec 1, .open_dec 2, .open_dec 3]
      ⟨0, [], [3, 2, 1, 0], [(3, 0), (2, 0), (1, 0), (0, 0)], [3, 2, 1, 0]⟩
      (by decide) (by rfl)).2.2.2.2.2 rfl 2
      ⟨1, [], [3, 1, 0], [(3, 0), (2, 0), (1, 0), (0, 0)], [3, 2, 1, 0]⟩ 4
      ⟨0, [], [4, 3, 1, 0], [(4, 0), (3, 0), (2, 0), (1, 0), (0, 0)], [4, 3, 2, 1, 0]⟩
      (by rfl) (by rfl)⟩

/-- C12, as amended. In every state that any interleaving of `math_open` and
matched `math_release` calls passes through from the initial value 4, the
state inside `math_open` between `atomic_dec_return` and the compensating
`atomic_inc` included, the counter equals 4 minus the sessions granted and
unclosed minus the denied `math_open` calls that have their `atomic_inc` still
to do. So the counter is at most 4 and at least minus the number of those
calls, and it lies in `[0, 4]` whenever no denied `math_open` is in flight. -/
theorem counter_accounting (σ : List Step) (hfl : Conc.boot.InFlightBelow (2 ^ 31) σ)
    (n : Nat) (s1 : Conc) (h : Conc.boot.run (σ.take n) = some s1) :
    s1.user_num = 4 - s1.active.length - s1.undo.length ∧ s1.active.length ≤ 4 ∧
    s1.user_num ≤ 4 ∧ -(s1.undo.length : Int) ≤ s1.user_num ∧
    (s1.undo = [] → 0 ≤ s1.user_num ∧ s1.user_num ≤ 4) := by
  have hfl1 := inFlight_take σ Conc.boot n hfl
  have hs1 : s1.Sound := run_sound (σ.take n) _ s1 boot_sound hfl1 h
  have hu : s1.undo.length < 2 ^ 31 := inFlight_final (σ.take n) _ s1 hfl1 h
  obtain ⟨-, hmax, hnum, hlen⟩ := sound_range hs1 hu
  refine ⟨hnum, by exact_mod_cast hlen, hmax, by omega, fun hq => ?_⟩
  have h0 : s1.undo.length = 0 := by rw [hq]; rfl
  omega

theorem counter_accounting_witness :
    Conc.boot.InFlightBelow (2 ^ 31)
      [.open_dec 0, .open_dec 1, .open_dec 2, .open_dec 3, .open_dec 4, .open_dec 5,
        .open_undo 4] ∧
    Conc.boot.run
      ([.open_dec 0, .open_dec 1, .open_dec 2, .open_dec 3, .open_dec 4, .open_dec 5,
        .open_undo 4].take 6) =
      some ⟨-2, [5, 4], [3, 2, 1, 0], [(3, 0), (2, 0), (1, 0), (0, 0)],
        [5, 4, 3, 2, 1, 0]⟩ ∧
    Conc.boot.run
      ([.open_dec 0, .open_dec 1, .open_dec 2, .open_dec 3, .open_dec 4, .open_dec 5,
        .open_undo 4].take 7) =
      some ⟨-1, [5], [3, 2, 1, 0], [(4, -EBUSY), (3, 0), (2, 0), (1, 0), (0, 0)],
        [5, 4, 3, 2, 1, 0]⟩ ∧
    ((-1 : Int) = 4 - ([3, 2, 1, 0] : List Nat).length - ([5] : List Nat).length ∧
      ([3, 2, 1, 0] : List Nat).length ≤ 4 ∧ (-1 : Int) ≤ 4 ∧
      -(([5] : List Nat).length : Int) ≤ -1 ∧
      (([5] : List Nat) = [] → (0 : Int) ≤ -1 ∧ (-1 : Int) ≤ 4)) :=
  ⟨by decide, by rfl, by rfl,
    counter_accounting
      [.open_dec 0, .open_dec 1, .open_dec 2, .open_dec 3, .open_dec 4, .open_dec 5,
        .open_undo 4] (by decide) 7
      ⟨-1, [5], [3, 2, 1, 0], [(4, -EBUSY), (3, 0), (2, 0), (1, 0), (0, 0)],
        [5, 4, 3, 2, 1, 0]⟩ (by rfl)⟩

end MathModule
